import Mathlib

/-!
Verification development for a Rust path tracer (BVH acceleration, AABB slab
tests, hittable wrappers, constant-density media, recursive integrator).

Numbers: the program computes in IEEE-754 `f64`.  We model `f64` values by the
inductive type `F` below: an exact rational, `+inf`, `-inf`, or `nan`, with the
IEEE rules for comparisons, for arithmetic on infinities, and for division by
zero (the model has a single zero, taken positive, so `1/0 = +inf`).  Rounding
of finite results is idealized as exact rational arithmetic; all properties
proved here concern control flow, comparisons and special-value propagation,
which this model reproduces faithfully.
-/

namespace RT

/-- Model of an `f64` value: finite rational, `+inf`, `-inf`, or `nan`. -/
inductive F where
  | nan : F
  | pinf : F
  | ninf : F
  | fin : ℚ → F
deriving DecidableEq, Repr

/-- IEEE `<` on `f64`: any comparison with `nan` is false. -/
def flt : F → F → Bool
  | .nan, _ => false
  | _, .nan => false
  | .pinf, _ => false
  | .ninf, .ninf => false
  | .ninf, _ => true
  | .fin _, .pinf => true
  | .fin _, .ninf => false
  | .fin p, .fin q => decide (p < q)

/-- IEEE `<=` on `f64`: any comparison with `nan` is false. -/
def fle : F → F → Bool
  | .nan, _ => false
  | _, .nan => false
  | .ninf, _ => true
  | .pinf, .pinf => true
  | .pinf, _ => false
  | .fin _, .pinf => true
  | .fin _, .ninf => false
  | .fin p, .fin q => decide (p ≤ q)

/-- IEEE negation. -/
def fneg : F → F
  | .nan => .nan
  | .pinf => .ninf
  | .ninf => .pinf
  | .fin q => .fin (-q)

/-- IEEE addition (infinities of opposite sign give `nan`). -/
def fadd : F → F → F
  | .nan, _ => .nan
  | _, .nan => .nan
  | .pinf, .ninf => .nan
  | .ninf, .pinf => .nan
  | .pinf, _ => .pinf
  | _, .pinf => .pinf
  | .ninf, _ => .ninf
  | _, .ninf => .ninf
  | .fin p, .fin q => .fin (p + q)

/-- IEEE subtraction. -/
def fsub (a b : F) : F := fadd a (fneg b)

/-- IEEE multiplication (`0 * inf = nan`). -/
def fmul : F → F → F
  | .nan, _ => .nan
  | _, .nan => .nan
  | .pinf, .pinf => .pinf
  | .pinf, .ninf => .ninf
  | .ninf, .pinf => .ninf
  | .ninf, .ninf => .pinf
  | .pinf, .fin q => if 0 < q then .pinf else if q < 0 then .ninf else .nan
  | .fin q, .pinf => if 0 < q then .pinf else if q < 0 then .ninf else .nan
  | .ninf, .fin q => if 0 < q then .ninf else if q < 0 then .pinf else .nan
  | .fin q, .ninf => if 0 < q then .ninf else if q < 0 then .pinf else .nan
  | .fin p, .fin q => .fin (p * q)

/-- IEEE division (`x/0 = ±inf` for `x ≠ 0`, `0/0 = nan`, `inf/inf = nan`;
the model's single zero is positive, so `1/0 = +inf`). -/
def fdiv : F → F → F
  | .nan, _ => .nan
  | _, .nan => .nan
  | .pinf, .pinf => .nan
  | .pinf, .ninf => .nan
  | .ninf, .pinf => .nan
  | .ninf, .ninf => .nan
  | .pinf, .fin q => if q < 0 then .ninf else .pinf
  | .ninf, .fin q => if q < 0 then .pinf else .ninf
  | .fin _, .pinf => .fin 0
  | .fin _, .ninf => .fin 0
  | .fin p, .fin q =>
      if q = 0 then (if p = 0 then .nan else if 0 < p then .pinf else .ninf)
      else .fin (p / q)

/-- Rust `f64::min`: if one argument is `nan`, the other is returned. -/
def fmin (a b : F) : F :=
  if a = .nan then b else if b = .nan then a else if fle a b then a else b

/-- Rust `f64::max`: if one argument is `nan`, the other is returned. -/
def fmax (a b : F) : F :=
  if a = .nan then b else if b = .nan then a else if fle b a then a else b

/-! ### Order lemmas for `F` -/

theorem fle_nan_iff {a b : F} (h : fle a b = true) : a ≠ .nan ∧ b ≠ .nan := by
  cases a <;> cases b <;> simp_all [fle]

theorem flt_nan_iff {a b : F} (h : flt a b = true) : a ≠ .nan ∧ b ≠ .nan := by
  cases a <;> cases b <;> simp_all [flt]

theorem fle_refl {a : F} (h : a ≠ .nan) : fle a a = true := by
  cases a <;> simp_all [fle]

theorem fle_trans {a b c : F} (h1 : fle a b = true) (h2 : fle b c = true) :
    fle a c = true := by
  cases a <;> cases b <;> cases c <;> simp_all [fle] <;> linarith

theorem flt_of_flt_of_fle {a b c : F} (h1 : flt a b = true) (h2 : fle b c = true) :
    flt a c = true := by
  cases a <;> cases b <;> cases c <;> simp_all [flt, fle] <;> linarith

theorem flt_of_fle_of_flt {a b c : F} (h1 : fle a b = true) (h2 : flt b c = true) :
    flt a c = true := by
  cases a <;> cases b <;> cases c <;> simp_all [flt, fle] <;> linarith

theorem flt_trans {a b c : F} (h1 : flt a b = true) (h2 : flt b c = true) :
    flt a c = true := by
  cases a <;> cases b <;> cases c <;> simp_all [flt] <;> linarith

theorem fle_of_flt {a b : F} (h : flt a b = true) : fle a b = true := by
  cases a <;> cases b <;> simp_all [flt, fle] <;> linarith

theorem fle_antisymm {a b : F} (h1 : fle a b = true) (h2 : fle b a = true) : a = b := by
  cases a <;> cases b <;> simp_all [fle] <;> linarith

theorem fle_of_not_flt {a b : F} (ha : a ≠ .nan) (hb : b ≠ .nan)
    (h : ¬ flt a b = true) : fle b a = true := by
  cases a <;> cases b <;> simp_all [flt, fle] <;> linarith

theorem not_fle_of_flt {a b : F} (h : flt a b = true) : fle b a = false := by
  cases a <;> cases b <;> simp_all [flt, fle] <;> linarith

theorem not_flt_of_fle {a b : F} (h : fle a b = true) : flt b a = false := by
  cases a <;> cases b <;> simp_all [flt, fle] <;> linarith

theorem flt_irrefl {a : F} : flt a a = false := by
  cases a <;> simp [flt]

theorem flt_asymm {a b : F} (h : flt a b = true) : flt b a = false := by
  cases a <;> cases b <;> simp_all [flt] <;> linarith

/-! ### Vectors, rays, intervals, AABBs (from `vec3.rs`, `ray.rs`,
`interval.rs`, `aabb.rs`) -/

/-- `Vec3<f64>` with the three components. Axis access `v[0] v[1] v[2]`
is `Vec3F.get`. -/
structure Vec3F where
  x : F
  y : F
  z : F
deriving DecidableEq, Repr

/-- Component access, `v[axis]` for `axis` in `0..3`. -/
def Vec3F.get (v : Vec3F) : Nat → F
  | 0 => v.x
  | 1 => v.y
  | _ => v.z

/-- Componentwise vector addition (`impl Add for Vec3`). -/
def vadd (a b : Vec3F) : Vec3F := ⟨fadd a.x b.x, fadd a.y b.y, fadd a.z b.z⟩

/-- Componentwise vector subtraction (`impl Sub for Vec3`). -/
def vsub (a b : Vec3F) : Vec3F := ⟨fsub a.x b.x, fsub a.y b.y, fsub a.z b.z⟩

/-- Vector-scalar multiplication (`impl Mul<f64> for Vec3`). -/
def vsmul (a : Vec3F) (t : F) : Vec3F := ⟨fmul a.x t, fmul a.y t, fmul a.z t⟩

/-- `Interval { min, max }` from `interval.rs`. -/
structure IntervalF where
  min : F
  max : F
deriving DecidableEq, Repr

/-- `Interval::EMPTY`: `min = +inf`, `max = -inf`. -/
def iEmpty : IntervalF := ⟨.pinf, .ninf⟩

/-- `Interval::UNIVERSE`: `min = -inf`, `max = +inf`. -/
def iUniverse : IntervalF := ⟨.ninf, .pinf⟩

/-- `Interval::size`: `max - min`. -/
def iSize (i : IntervalF) : F := fsub i.max i.min

/-- `Interval::from_intervals`: tightest enclosing interval,
`(min(a.min, b.min), max(a.max, b.max))` with Rust `f64::min`/`f64::max`. -/
def fromIntervals (a b : IntervalF) : IntervalF := ⟨fmin a.min b.min, fmax a.max b.max⟩

/-- `Interval::into_expand`: pad by `delta/2` on each side. -/
def intoExpand (i : IntervalF) (d : F) : IntervalF :=
  ⟨fsub i.min (fdiv d (.fin 2)), fadd i.max (fdiv d (.fin 2))⟩

/-- `Ray { orig, dir, tm }` from `ray.rs`. -/
structure RayF where
  orig : Vec3F
  dir : Vec3F
  tm : F
deriving DecidableEq, Repr

/-- `Ray::at(t) = origin + direction * t`. -/
def rayAt (r : RayF) (t : F) : Vec3F := vadd r.orig (vsmul r.dir t)

/-- `AABB = Vec3<Interval>`: three per-axis intervals. -/
structure AABBF where
  x : IntervalF
  y : IntervalF
  z : IntervalF
deriving DecidableEq, Repr

/-- Axis access `self[axis]` for `axis` in `0..3`. -/
def AABBF.get (b : AABBF) : Nat → IntervalF
  | 0 => b.x
  | 1 => b.y
  | _ => b.z

/-- `AABB::empty()`: every axis `Interval::EMPTY`. -/
def aabbEmpty : AABBF := ⟨iEmpty, iEmpty, iEmpty⟩

/-- The padding minimum `delta = 0.0001` from `AABB::pad_to_minimums`. -/
def aabbDelta : F := .fin (1 / 10000)

/-- One axis of `AABB::pad_to_minimums`: expand the interval by `delta`
when its size is below `delta`. -/
def padAx (i : IntervalF) : IntervalF :=
  if flt (iSize i) aabbDelta then intoExpand i aabbDelta else i

/-- `AABB::pad_to_minimums`: pad every axis thinner than `delta`. -/
def padToMinimums (b : AABBF) : AABBF := ⟨padAx b.x, padAx b.y, padAx b.z⟩

/-- One axis of `AABB::from_points`: order the two coordinates with `<=`. -/
def axisFromPoints (p q : F) : IntervalF := if fle p q then ⟨p, q⟩ else ⟨q, p⟩

/-- `AABB::from_points`: componentwise extrema of two corner points,
then `pad_to_minimums`. -/
def fromPoints (a b : Vec3F) : AABBF :=
  padToMinimums ⟨axisFromPoints a.x b.x, axisFromPoints a.y b.y, axisFromPoints a.z b.z⟩

/-- `AABB::from_aabbs`: axiswise union of two boxes, then `pad_to_minimums`. -/
def fromAabbs (b0 b1 : AABBF) : AABBF :=
  padToMinimums ⟨fromIntervals b0.x b1.x, fromIntervals b0.y b1.y, fromIntervals b0.z b1.z⟩

/-- `AABB::longest_axis`: nested strict comparisons of the three axis sizes. -/
def longestAxis (b : AABBF) : Nat :=
  if flt (iSize b.y) (iSize b.x) then
    if flt (iSize b.z) (iSize b.x) then 0 else 2
  else
    if flt (iSize b.z) (iSize b.y) then 1 else 2

/-- The slab crossing parameter `t0 = (ax.min - ray_orig[axis]) * adinv`
with `adinv = 1.0 / ray_dir[axis]`. -/
def slabT0 (ax : IntervalF) (o d : F) : F :=
  fmul (fsub ax.min o) (fdiv (.fin 1) d)

/-- The slab crossing parameter `t1 = (ax.max - ray_orig[axis]) * adinv`. -/
def slabT1 (ax : IntervalF) (o d : F) : F :=
  fmul (fsub ax.max o) (fdiv (.fin 1) d)

/-- One axis of the slab test in `AABB::hit`: compute the crossing
parameters `t0, t1` and narrow the running interval, branching on
`t0 < t1` exactly as the code does. -/
def axStep (ax : IntervalF) (o d : F) (t : IntervalF) : IntervalF :=
  if flt (slabT0 ax o d) (slabT1 ax o d) then
    ⟨if flt t.min (slabT0 ax o d) then slabT0 ax o d else t.min,
     if flt (slabT1 ax o d) t.max then slabT1 ax o d else t.max⟩
  else
    ⟨if flt t.min (slabT1 ax o d) then slabT1 ax o d else t.min,
     if flt (slabT0 ax o d) t.max then slabT0 ax o d else t.max⟩

/-- `AABB::hit`: the three slab steps with the early `ray_t.max <= ray_t.min`
exit after each axis. -/
def aabbHit (b : AABBF) (r : RayF) (rt : IntervalF) : Bool :=
  let rt0 := axStep b.x r.orig.x r.dir.x rt
  if fle rt0.max rt0.min then false
  else
    let rt1 := axStep b.y r.orig.y r.dir.y rt0
    if fle rt1.max rt1.min then false
    else
      let rt2 := axStep b.z r.orig.z r.dir.z rt1
      if fle rt2.max rt2.min then false else true

/-! ### C2: `AABB::longest_axis` -/

/-- A box with axis sizes `4, 3, 4`: axis 0 beats axis 1, axis 0 ties axis 2. -/
def tieBox : AABBF := ⟨⟨.fin 0, .fin 4⟩, ⟨.fin 0, .fin 3⟩, ⟨.fin 0, .fin 4⟩⟩

/-- C2, counterexample: the claim states that when axis 0's size equals
axis 2's size (with axis 0 beating axis 1), axis 0 is returned over axis 2.
On the box with sizes `4, 3, 4` the code's strict `>` comparisons return
axis 2 instead. -/
theorem longest_axis_tiebreak_cx :
    iSize (AABBF.get tieBox 0) = iSize (AABBF.get tieBox 2) ∧
    flt (iSize (AABBF.get tieBox 1)) (iSize (AABBF.get tieBox 0)) = true ∧
    longestAxis tieBox = 2 ∧ ¬ longestAxis tieBox = 0 := by
  refine ⟨by norm_num [tieBox, AABBF.get, iSize, fsub, fadd, fneg], ?_, ?_, ?_⟩ <;>
    norm_num [tieBox, AABBF.get, iSize, fsub, fadd, fneg, flt, longestAxis]

/-- C2, amended: `longest_axis` returns 0, 1, or 2; it returns 0 exactly when
axis 0's size strictly beats both others, 1 exactly when axis 0 does not
strictly beat axis 1 and axis 1 strictly beats axis 2, and 2 otherwise — every
tie in the two explicit comparisons resolves toward the *higher*-indexed
candidate, axis 2 (with all three sizes equal the result is 2).  Whenever the
three sizes are comparable (not `nan`), the returned axis has maximal size. -/
theorem longest_axis_characterization (b : AABBF) :
    ((longestAxis b = 0 ∨ longestAxis b = 1 ∨ longestAxis b = 2)
      ∧ (longestAxis b = 0 ↔
          flt (iSize b.y) (iSize b.x) = true ∧ flt (iSize b.z) (iSize b.x) = true)
      ∧ (longestAxis b = 1 ↔
          flt (iSize b.y) (iSize b.x) = false ∧ flt (iSize b.z) (iSize b.y) = true)
      ∧ (longestAxis b = 2 ↔
          ((flt (iSize b.y) (iSize b.x) = true ∧ flt (iSize b.z) (iSize b.x) = false)
            ∨ (flt (iSize b.y) (iSize b.x) = false ∧ flt (iSize b.z) (iSize b.y) = false))))
    ∧ (iSize b.x ≠ .nan → iSize b.y ≠ .nan → iSize b.z ≠ .nan →
        ∀ k, fle (iSize (AABBF.get b k)) (iSize (AABBF.get b (longestAxis b))) = true) := by
  constructor
  · unfold longestAxis
    by_cases h01 : flt (iSize b.y) (iSize b.x) = true
    · by_cases h02 : flt (iSize b.z) (iSize b.x) = true
      · simp [h01, h02]
      · simp only [Bool.not_eq_true] at h02
        simp [h01, h02]
    · simp only [Bool.not_eq_true] at h01
      by_cases h12 : flt (iSize b.z) (iSize b.y) = true
      · simp [h01, h12]
      · simp only [Bool.not_eq_true] at h12
        simp [h01, h12]
  · intro hx hy hz k
    have hnot : ∀ {u v : F}, u ≠ F.nan → v ≠ F.nan → flt u v = false → fle v u = true := by
      intro u v hu hv h
      exact fle_of_not_flt hu hv (by simp [h])
    rcases Bool.eq_false_or_eq_true (flt (iSize b.y) (iSize b.x)) with h01 | h01
    · rcases Bool.eq_false_or_eq_true (flt (iSize b.z) (iSize b.x)) with h02 | h02
      · have hla : longestAxis b = 0 := by simp [longestAxis, h01, h02]
        rw [hla]
        match k with
        | 0 => exact fle_refl hx
        | 1 => exact fle_of_flt h01
        | Nat.succ (Nat.succ n) => exact fle_of_flt h02
      · have h0le2 : fle (iSize b.x) (iSize b.z) = true := hnot hz hx h02
        have hla : longestAxis b = 2 := by simp [longestAxis, h01, h02]
        rw [hla]
        match k with
        | 0 => exact h0le2
        | 1 => exact fle_trans (fle_of_flt h01) h0le2
        | Nat.succ (Nat.succ n) => exact fle_refl hz
    · have h0le1 : fle (iSize b.x) (iSize b.y) = true := hnot hy hx h01
      rcases Bool.eq_false_or_eq_true (flt (iSize b.z) (iSize b.y)) with h12 | h12
      · have hla : longestAxis b = 1 := by simp [longestAxis, h01, h12]
        rw [hla]
        match k with
        | 0 => exact h0le1
        | 1 => exact fle_refl hy
        | Nat.succ (Nat.succ n) => exact fle_of_flt h12
      · have h1le2 : fle (iSize b.y) (iSize b.z) = true := hnot hz hy h12
        have hla : longestAxis b = 2 := by simp [longestAxis, h01, h12]
        rw [hla]
        match k with
        | 0 => exact fle_trans h0le1 h1le2
        | 1 => exact h1le2
        | Nat.succ (Nat.succ n) => exact fle_refl hz

/-- C2, witness: the characterization applied to the tie box with size
comparability discharged concretely. -/
theorem longest_axis_characterization_witness :
    fle (iSize (AABBF.get tieBox 0)) (iSize (AABBF.get tieBox (longestAxis tieBox))) = true :=
  (longest_axis_characterization tieBox).2
    (by simp [tieBox, iSize, fsub, fadd, fneg])
    (by simp [tieBox, iSize, fsub, fadd, fneg])
    (by simp [tieBox, iSize, fsub, fadd, fneg]) 0

/-! ### C9: the padding invariant of the AABB constructors -/

theorem padAx_min_size {i : IntervalF} (h : fle (.fin 0) (iSize i) = true) :
    fle aabbDelta (iSize (padAx i)) = true := by
  rcases i with ⟨mi, ma⟩
  cases mi <;> cases ma <;>
    simp_all [padAx, intoExpand, iSize, fsub, fadd, fneg, fdiv, fle, flt, aabbDelta] <;>
    split_ifs <;> simp_all [fle, fadd, fneg] <;> linarith

theorem fromIntervals_size_nonneg {a b : IntervalF}
    (ha : fle (.fin 0) (iSize a) = true) (hb : fle (.fin 0) (iSize b) = true) :
    fle (.fin 0) (iSize (fromIntervals a b)) = true := by
  rcases a with ⟨am, aM⟩
  rcases b with ⟨bm, bM⟩
  cases am <;> cases aM <;> cases bm <;> cases bM <;>
    simp_all [fromIntervals, iSize, fsub, fadd, fneg, fle, fmin, fmax] <;>
    split_ifs <;> simp_all [fle, fadd, fneg] <;> linarith

theorem axisFromPoints_size_nonneg (p q : ℚ) :
    fle (.fin 0) (iSize (axisFromPoints (.fin p) (.fin q))) = true := by
  unfold axisFromPoints
  split_ifs with hc
  · simp only [fle, decide_eq_true_eq] at hc
    simp [iSize, fsub, fadd, fneg, fle]
    linarith
  · simp only [fle, decide_eq_true_eq] at hc
    simp [iSize, fsub, fadd, fneg, fle]
    linarith

/-- C9, amended: every AABB built by `from_points` from two corner points with
*finite* coordinates, or by `from_aabbs` from two boxes each of whose axis
intervals has non-negative size, has every axis interval of size at least the
padding minimum `1e-4` (`pad_to_minimums` expands any thinner axis by
`0.5e-4` on each side).  Without these provisos the invariant fails (see the
counterexample on `AABB::empty`). -/
theorem aabb_padding_invariant :
    (∀ a b : Vec3F, (∀ k, ∃ q, Vec3F.get a k = F.fin q) →
      (∀ k, ∃ q, Vec3F.get b k = F.fin q) →
      ∀ k, fle aabbDelta (iSize (AABBF.get (fromPoints a b) k)) = true)
    ∧ (∀ b0 b1 : AABBF, (∀ k, fle (.fin 0) (iSize (AABBF.get b0 k)) = true) →
      (∀ k, fle (.fin 0) (iSize (AABBF.get b1 k)) = true) →
      ∀ k, fle aabbDelta (iSize (AABBF.get (fromAabbs b0 b1) k)) = true) := by
  constructor
  · intro a b ha hb k
    have hax : ∀ j, fle (.fin 0) (iSize (axisFromPoints (Vec3F.get a j) (Vec3F.get b j))) = true := by
      intro j
      obtain ⟨p, hp⟩ := ha j
      obtain ⟨q, hq⟩ := hb j
      rw [hp, hq]
      exact axisFromPoints_size_nonneg p q
    match k with
    | 0 => exact padAx_min_size (hax 0)
    | 1 => exact padAx_min_size (hax 1)
    | Nat.succ (Nat.succ n) => exact padAx_min_size (hax 2)
  · intro b0 b1 h0 h1 k
    match k with
    | 0 => exact padAx_min_size (fromIntervals_size_nonneg (h0 0) (h1 0))
    | 1 => exact padAx_min_size (fromIntervals_size_nonneg (h0 1) (h1 1))
    | Nat.succ (Nat.succ n) => exact padAx_min_size (fromIntervals_size_nonneg (h0 2) (h1 2))

/-- C9, counterexample: `AABB::from_aabbs(AABB::empty(), AABB::empty())` —
both arguments are constructible boxes — leaves every axis with size `-inf`,
far below the claimed minimum `1e-4`. -/
theorem aabb_padding_invariant_cx :
    fle aabbDelta (iSize (AABBF.get (fromAabbs aabbEmpty aabbEmpty) 0)) = false := by
  norm_num [fromAabbs, aabbEmpty, iEmpty, fromIntervals, fmin, fmax, fle, padToMinimums,
    padAx, iSize, fsub, fadd, fneg, flt, intoExpand, fdiv, aabbDelta, AABBF.get]

/-- C9, witness: the amended invariant applied to the corners `(1,1,1)` and
`(-1,-1,-1)` and to the unit-ish box pair, hypotheses discharged concretely. -/
theorem aabb_padding_invariant_witness :
    fle aabbDelta (iSize (AABBF.get (fromPoints ⟨.fin 1, .fin 1, .fin 1⟩
      ⟨.fin (-1), .fin (-1), .fin (-1)⟩) 0)) = true ∧
    fle aabbDelta (iSize (AABBF.get (fromAabbs tieBox tieBox) 1)) = true := by
  constructor
  · refine aabb_padding_invariant.1 _ _ ?_ ?_ 0
    · intro k
      match k with
      | 0 => exact ⟨1, rfl⟩
      | 1 => exact ⟨1, rfl⟩
      | Nat.succ (Nat.succ n) => exact ⟨1, rfl⟩
    · intro k
      match k with
      | 0 => exact ⟨-1, rfl⟩
      | 1 => exact ⟨-1, rfl⟩
      | Nat.succ (Nat.succ n) => exact ⟨-1, rfl⟩
  · refine aabb_padding_invariant.2 _ _ ?_ ?_ 1 <;>
      intro k <;>
      match k with
      | 0 => norm_num [tieBox, AABBF.get, iSize, fsub, fadd, fneg, fle]
      | 1 => norm_num [tieBox, AABBF.get, iSize, fsub, fadd, fneg, fle]
      | Nat.succ (Nat.succ n) => norm_num [tieBox, AABBF.get, iSize, fsub, fadd, fneg, fle]

/-! ### C4: `AABB::hit` on rays with a zero direction component -/

theorem flt_ninf_right (a : F) : flt a .ninf = false := by
  cases a <;> simp [flt]

theorem flt_pinf_left (a : F) : flt .pinf a = false := by
  cases a <;> simp [flt]

theorem fle_pinf_right {a : F} (h : a ≠ .nan) : fle a .pinf = true := by
  cases a <;> simp_all [fle]

theorem fle_ninf_left {a : F} (h : a ≠ .nan) : fle .ninf a = true := by
  cases a <;> simp_all [fle]

theorem hdiv_zero : fdiv (.fin 1) (.fin 0) = F.pinf := by
  norm_num [fdiv]

/-- When the two crossing parameters are `-inf` and `+inf`, the slab step
leaves the running interval unchanged. -/
theorem axStep_noop {ax : IntervalF} {o d : F} (t : IntervalF)
    (h0 : slabT0 ax o d = .ninf) (h1 : slabT1 ax o d = .pinf) :
    axStep ax o d t = t := by
  unfold axStep
  rw [h0, h1]
  have hc : flt F.ninf F.pinf = true := rfl
  simp [hc, flt_ninf_right, flt_pinf_left]

/-- A slab axis with zero ray direction and origin strictly inside the slab
leaves the running interval unchanged: `t0 = -inf`, `t1 = +inf`. -/
theorem axStep_zero_inside {ax : IntervalF} {o : F} (t : IntervalF)
    (h1 : flt ax.min o = true) (h2 : flt o ax.max = true) :
    axStep ax o (.fin 0) t = t := by
  apply axStep_noop
  · unfold slabT0
    rw [hdiv_zero]
    rcases ax with ⟨mi, ma⟩
    cases o <;> cases mi <;>
      simp_all [flt, fsub, fadd, fneg, fmul] <;>
      (try split_ifs) <;> first | rfl | linarith | (exfalso; linarith)
  · unfold slabT1
    rw [hdiv_zero]
    rcases ax with ⟨mi, ma⟩
    cases o <;> cases ma <;>
      simp_all [flt, fsub, fadd, fneg, fmul] <;>
      (try split_ifs) <;> first | rfl | linarith | (exfalso; linarith)

/-- A slab axis with zero ray direction whose nonempty slab has the origin
strictly below its min forces both crossing parameters to `+inf`. -/
theorem slabT_zero_below {ax : IntervalF} {o : F}
    (hax : fle ax.min ax.max = true) (ho : flt o ax.min = true) :
    slabT0 ax o (.fin 0) = .pinf ∧ slabT1 ax o (.fin 0) = .pinf := by
  have ho2 : flt o ax.max = true := flt_of_flt_of_fle ho hax
  constructor
  · unfold slabT0
    rw [hdiv_zero]
    rcases ax with ⟨mi, ma⟩
    cases o <;> cases mi <;>
      simp_all [flt, fle, fsub, fadd, fneg, fmul] <;>
      (try split_ifs) <;> first | rfl | linarith | (exfalso; linarith)
  · unfold slabT1
    rw [hdiv_zero]
    rcases ax with ⟨mi, ma⟩
    cases o <;> cases ma <;>
      simp_all [flt, fle, fsub, fadd, fneg, fmul] <;>
      (try split_ifs) <;> first | rfl | linarith | (exfalso; linarith)

/-- A slab axis with zero ray direction whose nonempty slab has the origin
strictly above its max forces both crossing parameters to `-inf`. -/
theorem slabT_zero_above {ax : IntervalF} {o : F}
    (hax : fle ax.min ax.max = true) (ho : flt ax.max o = true) :
    slabT0 ax o (.fin 0) = .ninf ∧ slabT1 ax o (.fin 0) = .ninf := by
  have ho2 : flt ax.min o = true := flt_of_fle_of_flt hax ho
  constructor
  · unfold slabT0
    rw [hdiv_zero]
    rcases ax with ⟨mi, ma⟩
    cases o <;> cases mi <;>
      simp_all [flt, fle, fsub, fadd, fneg, fmul] <;>
      (try split_ifs) <;> first | rfl | linarith | (exfalso; linarith)
  · unfold slabT1
    rw [hdiv_zero]
    rcases ax with ⟨mi, ma⟩
    cases o <;> cases ma <;>
      simp_all [flt, fle, fsub, fadd, fneg, fmul] <;>
      (try split_ifs) <;> first | rfl | linarith | (exfalso; linarith)

/-- A slab axis with zero ray direction whose (nonempty) slab does not
contain the origin narrows the running interval to an empty one: both
crossing parameters are the same infinity, so `max <= min` fails the test. -/
theorem axStep_zero_outside {ax : IntervalF} {o : F} {t : IntervalF}
    (hax : fle ax.min ax.max = true)
    (ho : flt o ax.min = true ∨ flt ax.max o = true)
    (hmin : t.min ≠ .nan) (hmax : t.max ≠ .nan) :
    fle (axStep ax o (.fin 0) t).max (axStep ax o (.fin 0) t).min = true := by
  rcases t with ⟨tmin, tmax⟩
  rcases ho with ho | ho
  · obtain ⟨h0, h1⟩ := slabT_zero_below hax ho
    unfold axStep
    rw [h0, h1]
    simp only [flt_irrefl, flt_pinf_left, Bool.false_eq_true, if_false]
    have hmn : (if flt tmin F.pinf = true then F.pinf else tmin) = F.pinf := by
      cases tmin <;> simp_all [flt]
    rw [hmn]
    exact fle_pinf_right hmax
  · obtain ⟨h0, h1⟩ := slabT_zero_above hax ho
    unfold axStep
    rw [h0, h1]
    simp only [flt_irrefl, flt_ninf_right, Bool.false_eq_true, if_false]
    have hmx : (if flt F.ninf tmax = true then F.ninf else tmax) = F.ninf := by
      cases tmax <;> simp_all [flt]
    rw [hmx]
    exact fle_ninf_left hmin

/-- Each slab step keeps the running interval bounds free of `nan`. -/
theorem axStep_nonnan {ax : IntervalF} {o d : F} {t : IntervalF}
    (hmin : t.min ≠ .nan) (hmax : t.max ≠ .nan) :
    (axStep ax o d t).min ≠ .nan ∧ (axStep ax o d t).max ≠ .nan := by
  have gen : ∀ u v : F, u ≠ .nan → (if flt u v = true then v else u) ≠ .nan := by
    intro u v hu
    by_cases h : flt u v = true
    · simp only [h, if_true]
      exact (flt_nan_iff h).2
    · simp only [h, if_false]
      exact hu
  have gen2 : ∀ u v : F, u ≠ .nan → (if flt v u = true then v else u) ≠ .nan := by
    intro u v hu
    by_cases h : flt v u = true
    · simp only [h, if_true]
      exact (flt_nan_iff h).1
    · simp only [h, if_false]
      exact hu
  unfold axStep
  by_cases h : flt (slabT0 ax o d) (slabT1 ax o d) = true <;>
    simp only [h, if_true, if_false, Bool.false_eq_true] <;>
    exact ⟨gen _ _ hmin, gen2 _ _ hmax⟩

/-- C4, amended: `AABB::hit` has no special case for a zero direction
component; `adinv = 1/0` is `+inf` and, on such an axis, the slab test
degenerates to (a) imposing no additional constraint on the running
`[tmin, tmax]` when the ray origin is strictly inside that axis's slab, and
(b) a definite miss — `hit` returns `false` — when the origin is outside a
*nonempty* slab (`min <= max`) and the query interval's bounds are not `nan`.
(The totality of the test is by construction of the model; the original
claim's unconditional miss fails for inverted slabs such as `AABB::empty`,
see the counterexample.) -/
theorem aabb_hit_zero_direction (b : AABBF) (r : RayF) (rt : IntervalF) (k : Nat)
    (hk : k < 3) (hd : Vec3F.get r.dir k = .fin 0) :
    ((flt (AABBF.get b k).min (Vec3F.get r.orig k) = true ∧
      flt (Vec3F.get r.orig k) (AABBF.get b k).max = true) →
        ∀ t, axStep (AABBF.get b k) (Vec3F.get r.orig k) (.fin 0) t = t)
    ∧ (fle (AABBF.get b k).min (AABBF.get b k).max = true →
       (flt (Vec3F.get r.orig k) (AABBF.get b k).min = true ∨
        flt (AABBF.get b k).max (Vec3F.get r.orig k) = true) →
       rt.min ≠ .nan → rt.max ≠ .nan →
       aabbHit b r rt = false) := by
  constructor
  · intro hin t
    exact axStep_zero_inside t hin.1 hin.2
  · match k with
    | 0 =>
      intro hax ho hmin hmax
      have hd0 : r.dir.x = F.fin 0 := hd
      have h0 : fle (axStep b.x r.orig.x r.dir.x rt).max
          (axStep b.x r.orig.x r.dir.x rt).min = true := by
        rw [hd0]
        exact axStep_zero_outside hax ho hmin hmax
      simp [aabbHit, h0]
    | 1 =>
      intro hax ho hmin hmax
      have hd1 : r.dir.y = F.fin 0 := hd
      by_cases h0 : fle (axStep b.x r.orig.x r.dir.x rt).max
          (axStep b.x r.orig.x r.dir.x rt).min = true
      · simp [aabbHit, h0]
      · obtain ⟨hm1, hm2⟩ := @axStep_nonnan b.x r.orig.x r.dir.x _ hmin hmax
        have h1 : fle (axStep b.y r.orig.y r.dir.y (axStep b.x r.orig.x r.dir.x rt)).max
            (axStep b.y r.orig.y r.dir.y (axStep b.x r.orig.x r.dir.x rt)).min = true := by
          rw [hd1]
          exact axStep_zero_outside hax ho hm1 hm2
        simp [aabbHit, h0, h1]
    | Nat.succ (Nat.succ m) =>
      intro hax ho hmin hmax
      have hd2 : r.dir.z = F.fin 0 := hd
      by_cases h0 : fle (axStep b.x r.orig.x r.dir.x rt).max
          (axStep b.x r.orig.x r.dir.x rt).min = true
      · simp [aabbHit, h0]
      · obtain ⟨hm1, hm2⟩ := @axStep_nonnan b.x r.orig.x r.dir.x _ hmin hmax
        by_cases h1 : fle (axStep b.y r.orig.y r.dir.y (axStep b.x r.orig.x r.dir.x rt)).max
            (axStep b.y r.orig.y r.dir.y (axStep b.x r.orig.x r.dir.x rt)).min = true
        · simp [aabbHit, h0, h1]
        · obtain ⟨hn1, hn2⟩ := @axStep_nonnan b.y r.orig.y r.dir.y _ hm1 hm2
          have h2 : fle (axStep b.z r.orig.z r.dir.z (axStep b.y r.orig.y r.dir.y
              (axStep b.x r.orig.x r.dir.x rt))).max
              (axStep b.z r.orig.z r.dir.z (axStep b.y r.orig.y r.dir.y
              (axStep b.x r.orig.x r.dir.x rt))).min = true := by
            rw [hd2]
            exact axStep_zero_outside hax ho hn1 hn2
          simp [aabbHit, h0, h1, h2]

/-- A ray with zero x-direction whose origin `(0,0,0)` is outside (below the
min of) the x slab `[+inf, -inf]` of `AABB::empty()`. -/
def cxRay : RayF := ⟨⟨.fin 0, .fin 0, .fin 0⟩, ⟨.fin 0, .fin 1, .fin 0⟩, .fin 0⟩

/-- C4, counterexample: on `AABB::empty()` — whose x slab is the inverted
interval `[+inf, -inf]` — a ray with zero x-direction component and origin
outside that slab is *not* rejected: `AABB::hit` returns `true`, because the
`t0 < t1` branch logic treats an inverted slab as unconstraining.  This
refutes the claim's unconditional "definite miss when the origin lies
outside the slab". -/
theorem aabb_hit_zero_direction_cx :
    Vec3F.get cxRay.dir 0 = .fin 0 ∧
    flt (Vec3F.get cxRay.orig 0) ((AABBF.get aabbEmpty 0).min) = true ∧
    fle ((AABBF.get aabbEmpty 0).min) (Vec3F.get cxRay.orig 0) = false ∧
    aabbHit aabbEmpty cxRay ⟨.fin 0, .fin 10⟩ = true := by
  refine ⟨rfl, by simp [cxRay, aabbEmpty, iEmpty, AABBF.get, Vec3F.get, flt], ?_, ?_⟩
  · simp [cxRay, aabbEmpty, iEmpty, AABBF.get, Vec3F.get, fle]
  · norm_num [aabbHit, axStep, slabT0, slabT1, aabbEmpty, iEmpty, cxRay, fdiv, fsub,
      fadd, fneg, fmul, flt, fle]

/-- Ray with zero x-direction, origin x strictly inside `tieBox`'s x slab. -/
def rayInW : RayF := ⟨⟨.fin 2, .fin 0, .fin 0⟩, ⟨.fin 0, .fin 1, .fin 0⟩, .fin 0⟩

/-- Ray with zero x-direction, origin x below `tieBox`'s x slab. -/
def rayOutW : RayF := ⟨⟨.fin (-5), .fin 0, .fin 0⟩, ⟨.fin 0, .fin 1, .fin 0⟩, .fin 0⟩

/-- C4, witness: both degenerate behaviors applied at concrete inputs. -/
theorem aabb_hit_zero_direction_witness :
    axStep (AABBF.get tieBox 0) (Vec3F.get rayInW.orig 0) (.fin 0)
      ⟨.fin 1, .fin 9⟩ = ⟨.fin 1, .fin 9⟩ ∧
    aabbHit tieBox rayOutW ⟨.fin 0, .fin 10⟩ = false :=
  ⟨(aabb_hit_zero_direction tieBox rayInW ⟨.fin 0, .fin 10⟩ 0 (by norm_num) rfl).1
      ⟨by norm_num [tieBox, AABBF.get, Vec3F.get, rayInW, flt],
       by norm_num [tieBox, AABBF.get, Vec3F.get, rayInW, flt]⟩ ⟨.fin 1, .fin 9⟩,
   (aabb_hit_zero_direction tieBox rayOutW ⟨.fin 0, .fin 10⟩ 0 (by norm_num) rfl).2
      (by norm_num [tieBox, AABBF.get, fle])
      (Or.inl (by norm_num [tieBox, AABBF.get, Vec3F.get, rayOutW, flt]))
      (by simp) (by simp)⟩

/-! ### Hittables, `HittableList::hit`, and the BVH (from `hittable.rs`,
`hittable_list.rs`, `bvh.rs`) -/

/-- `HitRecord` from `hittable.rs`.  The shared material handle
(`Arc<dyn Material>`) is modeled as an arena index; material behavior is
looked up separately where needed. -/
structure HitRec where
  t : F
  p : Vec3F
  front : Bool
  normal : Vec3F
  mat : Nat
  u : F
  v : F
deriving DecidableEq, Repr

/-- A hittable object as the aggregates see it (`dyn Hittable`): a `hit`
function and the precomputed bounding box. -/
structure Obj where
  hit : RayF → IntervalF → Option HitRec
  box : AABBF

/-- One iteration of the `HittableList::hit` loop: query the object over
`(ray_t.min, closest_so_far)` and update the result and `closest_so_far`. -/
def hlStep (r : RayF) (lo : F) (st : Option HitRec × F) (o : Obj) : Option HitRec × F :=
  match o.hit r ⟨lo, st.2⟩ with
  | some hr => (some hr, hr.t)
  | none => st

/-- `HittableList::hit`: scan the objects in order, each queried with the
interval narrowed to the closest hit so far. -/
def listHit (L : List Obj) (r : RayF) (I : IntervalF) : Option HitRec :=
  (L.foldl (hlStep r I.min) (none, I.max)).1

/-- A built BVH: leaves are the original objects, internal nodes carry the
two children and the node's bounding box (`struct BVHNode`). -/
inductive BVH where
  | leaf : Obj → BVH
  | node : BVH → BVH → AABBF → BVH

/-- `BVHNode::hit` (via `impl Hittable for BVHNode`): prune by the node box,
query the left child with the full interval, narrow the interval's upper
bound to the left hit's `t` before querying the right child, and return
`hit_right.or(hit_left)`. -/
def BVH.hitF : BVH → RayF → IntervalF → Option HitRec
  | .leaf o, r, t => o.hit r t
  | .node lc rc box, r, t =>
    if aabbHit box r t then
      match lc.hitF r t with
      | some hrL =>
        match rc.hitF r ⟨t.min, hrL.t⟩ with
        | some hrR => some hrR
        | none => some hrL
      | none => rc.hitF r t
    else none

/-- The span's union box in `BVHNode::new`: fold `AABB::from_aabbs` over the
objects starting from `AABB::empty()`. -/
def spanBox (L : List Obj) : AABBF := L.foldl (fun bb o => fromAabbs bb o.box) aabbEmpty

/-- The sort comparator of `BVHNode::new`: order by the minimum coordinate of
the bounding box along the chosen axis (`box_compare`). -/
def boxComp (axis : Nat) (a b : Obj) : Bool :=
  fle (AABBF.get a.box axis).min (AABBF.get b.box axis).min

/-- `BVHNode::new`: span of one object duplicates it into both children; two
objects become the two children in original order; otherwise sort by the
box minimum along the union box's longest axis, split at the midpoint and
recurse.  (The empty span is unsupported in the code — it recurses forever —
and is mapped to an inert leaf here; no claim concerns it.) -/
def BVH.build : List Obj → BVH
  | [] => .leaf ⟨fun _ _ => none, aabbEmpty⟩
  | [o] => .node (.leaf o) (.leaf o) (spanBox [o])
  | [a, b] => .node (.leaf a) (.leaf b) (spanBox [a, b])
  | o1 :: o2 :: o3 :: rest =>
    let l := o1 :: o2 :: o3 :: rest
    let sorted := l.mergeSort (boxComp (longestAxis (spanBox l)))
    .node (BVH.build (sorted.take (sorted.length / 2)))
          (BVH.build (sorted.drop (sorted.length / 2)))
          (spanBox l)
  termination_by L => L.length
  decreasing_by
    all_goals simp [List.length_take, List.length_drop, List.length_mergeSort]
    all_goals omega

/-- The object list at the leaves of a BVH tree. -/
def BVH.leaves : BVH → List Obj
  | .leaf o => [o]
  | .node lc rc _ => lc.leaves ++ rc.leaves

/-! ### The object contract of C1 -/

/-- `t` lies strictly inside the interval `J`. -/
def Inside (J : IntervalF) (t : F) : Prop := flt J.min t = true ∧ flt t J.max = true

/-- `J'` is a subinterval of `J`. -/
def Subiv (J' J : IntervalF) : Prop := fle J.min J'.min = true ∧ fle J'.max J.max = true

/-- The claim's hypotheses on a member object, relative to an underlying hit
set `S`: `hit` is a function (determinism), it returns only records with `t`
strictly inside the query interval, and it returns the nearest hit of `S`
inside the interval when one exists. -/
structure Induced (o : Obj) (S : RayF → F → Prop) : Prop where
  nn : ∀ r t, S r t → t ≠ .nan
  hit_some : ∀ r J hr, o.hit r J = some hr →
    S r hr.t ∧ Inside J hr.t ∧ ∀ t', S r t' → Inside J t' → fle hr.t t' = true
  hit_none : ∀ r J, o.hit r J = none → ∀ t', S r t' → ¬ Inside J t'

/-- A member object satisfying C1's hypotheses for some underlying hit set. -/
def GoodObj (o : Obj) : Prop := ∃ S, Induced o S

theorem GoodObj.respects {o : Obj} (h : GoodObj o) {r : RayF} {J : IntervalF}
    {hr : HitRec} (hh : o.hit r J = some hr) : Inside J hr.t := by
  obtain ⟨S, hS⟩ := h
  exact (hS.hit_some r J hr hh).2.1

theorem GoodObj.mono {o : Obj} (h : GoodObj o) {r : RayF} {J J' : IntervalF}
    (hsub : Subiv J' J) (hh : o.hit r J = none) : o.hit r J' = none := by
  obtain ⟨S, hS⟩ := h
  cases hq : o.hit r J' with
  | none => rfl
  | some hr =>
    obtain ⟨hmem, hin, -⟩ := hS.hit_some r J' hr hq
    exact absurd ⟨flt_of_fle_of_flt hsub.1 hin.1, flt_of_flt_of_fle hin.2 hsub.2⟩
      (hS.hit_none r J hh hr.t hmem)

theorem GoodObj.stable {o : Obj} (h : GoodObj o) {r : RayF} {J J' : IntervalF}
    {hr : HitRec} (hh : o.hit r J = some hr) (hsub : Subiv J' J)
    (hin : Inside J' hr.t) : ∃ hr', o.hit r J' = some hr' ∧ hr'.t = hr.t := by
  obtain ⟨S, hS⟩ := h
  obtain ⟨hmem, hinJ, hmin⟩ := hS.hit_some r J hr hh
  cases hq : o.hit r J' with
  | none => exact absurd hin (hS.hit_none r J' hq hr.t hmem)
  | some hr' =>
    obtain ⟨hmem', hin', hmin'⟩ := hS.hit_some r J' hr' hq
    refine ⟨hr', rfl, ?_⟩
    have h1 : fle hr'.t hr.t = true := hmin' hr.t hmem hin
    have h2 : fle hr.t hr'.t = true := hmin hr'.t hmem'
      ⟨flt_of_fle_of_flt hsub.1 hin'.1, flt_of_flt_of_fle hin'.2 hsub.2⟩
    exact fle_antisymm h1 h2

theorem GoodObj.cut {o : Obj} (h : GoodObj o) {r : RayF} {J J' : IntervalF}
    {hr : HitRec} (hh : o.hit r J = some hr) (hsub : Subiv J' J)
    (hcut : fle J'.max hr.t = true) : o.hit r J' = none := by
  obtain ⟨S, hS⟩ := h
  obtain ⟨hmem, hinJ, hmin⟩ := hS.hit_some r J hr hh
  cases hq : o.hit r J' with
  | none => rfl
  | some hr' =>
    obtain ⟨hmem', hin', -⟩ := hS.hit_some r J' hr' hq
    have hlt : flt hr'.t J'.max = true := hin'.2
    have hge : fle hr.t hr'.t = true := hmin hr'.t hmem'
      ⟨flt_of_fle_of_flt hsub.1 hin'.1, flt_of_flt_of_fle hin'.2 hsub.2⟩
    have : flt hr'.t hr'.t = true :=
      flt_of_flt_of_fle (flt_of_flt_of_fle hlt hcut) hge
    simp [flt_irrefl] at this

/-- `B` encloses `b`: per axis, `B.min <= b.min` and `b.max <= B.max`. -/
def Encloses (B b : AABBF) : Prop :=
  ∀ k, fle (AABBF.get B k).min (AABBF.get b k).min = true ∧
       fle (AABBF.get b k).max (AABBF.get B k).max = true

/-- Soundness of an object's bounding box for the slab test: whenever the
object reports a hit over some interval, every box enclosing the object's
box passes `AABB::hit` for the same ray and interval. -/
def BoxSound (o : Obj) : Prop :=
  ∀ r J hr B, o.hit r J = some hr → Encloses B o.box → aabbHit B r J = true

/-- A box with no `nan` bound (boxes with `nan` bounds make the build's
`partial_cmp().unwrap()` panic in the code). -/
def BoxNN (b : AABBF) : Prop :=
  ∀ k, (AABBF.get b k).min ≠ .nan ∧ (AABBF.get b k).max ≠ .nan

/-! ### Pure fold lemmas about `HittableList::hit` -/

theorem hl_coherent (r : RayF) (lo : F) (L : List Obj) (c0 : F) :
    ∀ st : Option HitRec × F,
      (st.1 = none ∧ st.2 = c0) ∨ (∃ h, st.1 = some h ∧ st.2 = h.t) →
      ((L.foldl (hlStep r lo) st).1 = none ∧ (L.foldl (hlStep r lo) st).2 = c0) ∨
      (∃ h, (L.foldl (hlStep r lo) st).1 = some h ∧ (L.foldl (hlStep r lo) st).2 = h.t) := by
  induction L with
  | nil => intro st h; exact h
  | cons o L ih =>
    intro st h
    simp only [List.foldl_cons]
    apply ih
    unfold hlStep
    cases hq : o.hit r ⟨lo, st.2⟩ with
    | none => exact h
    | some hr => exact Or.inr ⟨hr, rfl, rfl⟩

theorem hl_some_stays (r : RayF) (lo : F) (L : List Obj) :
    ∀ (h : HitRec) (c : F), ∃ h', (L.foldl (hlStep r lo) (some h, c)).1 = some h' := by
  induction L with
  | nil => intro h c; exact ⟨h, rfl⟩
  | cons o L ih =>
    intro h c
    simp only [List.foldl_cons]
    unfold hlStep
    cases hq : o.hit r ⟨lo, c⟩ with
    | none => exact ih h c
    | some hr => exact ih hr hr.t

theorem hl_or_init (r : RayF) (lo : F) (L : List Obj) :
    ∀ (h : HitRec) (c : F),
      (L.foldl (hlStep r lo) (some h, c)).1 =
      ((L.foldl (hlStep r lo) (none, c)).1).or (some h) := by
  induction L with
  | nil => intro h c; rfl
  | cons o L ih =>
    intro h c
    simp only [List.foldl_cons]
    cases hq : o.hit r ⟨lo, c⟩ with
    | none =>
      have e1 : hlStep r lo (some h, c) o = (some h, c) := by simp [hlStep, hq]
      have e2 : hlStep r lo (none, c) o = (none, c) := by simp [hlStep, hq]
      rw [e1, e2]
      exact ih h c
    | some hr =>
      have e1 : hlStep r lo (some h, c) o = (some hr, hr.t) := by simp [hlStep, hq]
      have e2 : hlStep r lo (none, c) o = (some hr, hr.t) := by simp [hlStep, hq]
      rw [e1, e2]
      obtain ⟨h', hh'⟩ := hl_some_stays r lo L hr hr.t
      rw [hh', Option.or]

/-- Record-level decomposition of the list scan over an appended list: this
is exactly the structure of `BVHNode::hit`'s narrow-then-prefer-right logic. -/
theorem listHit_append (L1 L2 : List Obj) (r : RayF) (I : IntervalF) :
    listHit (L1 ++ L2) r I =
      match listHit L1 r I with
      | none => listHit L2 r I
      | some hA => (listHit L2 r ⟨I.min, hA.t⟩).or (some hA) := by
  unfold listHit
  rw [List.foldl_append]
  have hc := hl_coherent r I.min L1 I.max (none, I.max) (Or.inl ⟨rfl, rfl⟩)
  rcases hc with ⟨h1, h2⟩ | ⟨h, h1, h2⟩
  · rw [h1]
    have : L1.foldl (hlStep r I.min) (none, I.max) = (none, I.max) := by
      have := Prod.mk.eta (p := L1.foldl (hlStep r I.min) (none, I.max))
      rw [← this, h1, h2]
    rw [this]
  · rw [h1]
    have : L1.foldl (hlStep r I.min) (none, I.max) = (some h, h.t) := by
      have := Prod.mk.eta (p := L1.foldl (hlStep r I.min) (none, I.max))
      rw [← this, h1, h2]
    rw [this]
    exact hl_or_init r I.min L2 h h.t

/-! ### Degenerate (`nan`-bounded) query intervals -/

theorem fold_none_of_queries (r : RayF) (lo : F) (c0 : F) (L : List Obj)
    (h : ∀ o ∈ L, o.hit r ⟨lo, c0⟩ = none) :
    L.foldl (hlStep r lo) (none, c0) = (none, c0) := by
  induction L with
  | nil => rfl
  | cons o L ih =>
    simp only [List.foldl_cons]
    have e : hlStep r lo (none, c0) o = (none, c0) := by
      simp [hlStep, h o (by simp)]
    rw [e]
    exact ih fun o' ho' => h o' (by simp [ho'])

theorem flt_nan_right (a : F) : flt a .nan = false := by
  cases a <;> simp [flt]

theorem flt_nan_left (a : F) : flt .nan a = false := by
  cases a <;> simp [flt]

theorem listHit_nan {L : List Obj} {r : RayF} {I : IntervalF}
    (hg : ∀ o ∈ L, GoodObj o) (h : I.min = .nan ∨ I.max = .nan) :
    listHit L r I = none := by
  unfold listHit
  rw [fold_none_of_queries r I.min I.max L ?_]
  intro o ho
  cases hq : o.hit r ⟨I.min, I.max⟩ with
  | none => rfl
  | some hr =>
    have hin : Inside ⟨I.min, I.max⟩ hr.t := (hg o ho).respects hq
    rcases h with h | h
    · have h1 := hin.1
      rw [show (⟨I.min, I.max⟩ : IntervalF).min = F.nan from h, flt_nan_left] at h1
      exact absurd h1 (by simp)
    · have h2 := hin.2
      rw [show (⟨I.min, I.max⟩ : IntervalF).max = F.nan from h, flt_nan_right] at h2
      exact absurd h2 (by simp)

theorem treeHit_nan {T : BVH} {r : RayF} {I : IntervalF}
    (hg : ∀ o ∈ T.leaves, GoodObj o) (h : I.min = .nan ∨ I.max = .nan) :
    T.hitF r I = none := by
  induction T generalizing I with
  | leaf o =>
    cases hq : o.hit r I with
    | none => simp [BVH.hitF, hq]
    | some hr =>
      have hin : Inside I hr.t := (hg o (by simp [BVH.leaves])).respects hq
      rcases h with h | h
      · have h1 := hin.1
        rw [h, flt_nan_left] at h1
        exact absurd h1 (by simp)
      · have h2 := hin.2
        rw [h, flt_nan_right] at h2
        exact absurd h2 (by simp)
  | node lc rc box ihl ihr =>
    have hgl : ∀ o ∈ lc.leaves, GoodObj o := fun o ho =>
      hg o (by simp [BVH.leaves, ho])
    have hgr : ∀ o ∈ rc.leaves, GoodObj o := fun o ho =>
      hg o (by simp [BVH.leaves, ho])
    unfold BVH.hitF
    rw [ihl hgl h, ihr hgr h]
    simp

/-! ### Where a list-scan hit comes from -/

theorem listHit_source_aux (r : RayF) (lo hi : F) (L : List Obj)
    (hg : ∀ o ∈ L, GoodObj o) :
    ∀ (st : Option HitRec × F) (hr : HitRec),
      fle st.2 hi = true →
      (L.foldl (hlStep r lo) st).1 = some hr →
      st.1 = some hr ∨
      ∃ o ∈ L, ∃ c, fle c hi = true ∧ o.hit r ⟨lo, c⟩ = some hr := by
  induction L with
  | nil => intro st hr _ hfold; exact Or.inl hfold
  | cons o L ih =>
    intro st hr hst hfold
    simp only [List.foldl_cons] at hfold
    have hgL : ∀ o' ∈ L, GoodObj o' := fun o' ho' => hg o' (by simp [ho'])
    cases hq : o.hit r ⟨lo, st.2⟩ with
    | none =>
      have e : hlStep r lo st o = st := by simp [hlStep, hq]
      rw [e] at hfold
      rcases ih hgL st hr hst hfold with h | ⟨o', ho', c, hc, hh⟩
      · exact Or.inl h
      · exact Or.inr ⟨o', by simp [ho'], c, hc, hh⟩
    | some hr2 =>
      have e : hlStep r lo st o = (some hr2, hr2.t) := by simp [hlStep, hq]
      rw [e] at hfold
      have hin : Inside ⟨lo, st.2⟩ hr2.t := (hg o (by simp)).respects hq
      have h2hi : fle hr2.t hi = true := fle_of_flt (flt_of_flt_of_fle hin.2 hst)
      rcases ih hgL (some hr2, hr2.t) hr h2hi hfold with h | ⟨o', ho', c, hc, hh⟩
      · exact Or.inr ⟨o, by simp, st.2, hst, by rw [hq, ← h]⟩
      · exact Or.inr ⟨o', by simp [ho'], c, hc, hh⟩

theorem listHit_source {L : List Obj} {r : RayF} {I : IntervalF} {hr : HitRec}
    (hg : ∀ o ∈ L, GoodObj o) (hmax : I.max ≠ .nan)
    (h : listHit L r I = some hr) :
    ∃ o ∈ L, ∃ c, fle c I.max = true ∧ o.hit r ⟨I.min, c⟩ = some hr := by
  unfold listHit at h
  rcases listHit_source_aux r I.min I.max L hg (none, I.max) hr (fle_refl hmax) h with
    h | h
  · exact absurd h (by simp)
  · exact h

/-! ### `AABB::hit` is monotone in the query interval -/

theorem bump_min {m2 m1 v : F} (h : fle m2 m1 = true) :
    fle (if flt m2 v = true then v else m2) (if flt m1 v = true then v else m1) = true := by
  obtain ⟨h2n, h1n⟩ := fle_nan_iff h
  by_cases c1 : flt m1 v = true <;> by_cases c2 : flt m2 v = true <;>
    simp only [c1, c2, if_true, if_false, Bool.false_eq_true,
      Bool.not_eq_true] <;> (try simp only [Bool.false_eq_true, if_false])
  · exact fle_refl (flt_nan_iff c2).2
  · exact fle_of_flt (flt_of_fle_of_flt h c1)
  · exact fle_of_not_flt h1n (flt_nan_iff c2).2 (by simp [c1])
  · exact h

theorem bump_max {m1 m2 v : F} (h : fle m1 m2 = true) :
    fle (if flt v m1 = true then v else m1) (if flt v m2 = true then v else m2) = true := by
  obtain ⟨h1n, h2n⟩ := fle_nan_iff h
  by_cases c1 : flt v m1 = true <;> by_cases c2 : flt v m2 = true <;>
    simp only [c1, c2, if_true, if_false, Bool.false_eq_true,
      Bool.not_eq_true] <;> (try simp only [Bool.false_eq_true, if_false])
  · exact fle_refl (flt_nan_iff c1).1
  · exact fle_of_flt (flt_of_flt_of_fle c1 h)
  · exact fle_of_not_flt (flt_nan_iff c2).1 h1n (by simp [c1])
  · exact h

/-- Widening the running interval is preserved by each slab step. -/
theorem axStep_sub {ax : IntervalF} {o d : F} {t1 t2 : IntervalF}
    (h : fle t2.min t1.min = true ∧ fle t1.max t2.max = true) :
    fle (axStep ax o d t2).min (axStep ax o d t1).min = true ∧
    fle (axStep ax o d t1).max (axStep ax o d t2).max = true := by
  unfold axStep
  by_cases c : flt (slabT0 ax o d) (slabT1 ax o d) = true <;>
    simp only [c, if_true, if_false, Bool.false_eq_true] <;>
    exact ⟨bump_min h.1, bump_max h.2⟩

/-- `AABB::hit` is monotone in the query interval: a passing test still
passes after widening the interval. -/
theorem aabbHit_mono {b : AABBF} {r : RayF} {J' J : IntervalF}
    (hs : Subiv J' J) (h : aabbHit b r J' = true) : aabbHit b r J = true := by
  have inv1 := @axStep_sub b.x r.orig.x r.dir.x J' J ⟨hs.1, hs.2⟩
  have inv2 := @axStep_sub b.y r.orig.y r.dir.y _ _ inv1
  have inv3 := @axStep_sub b.z r.orig.z r.dir.z _ _ inv2
  by_cases c1 : fle (axStep b.x r.orig.x r.dir.x J).max (axStep b.x r.orig.x r.dir.x J).min = true
  · exfalso
    have hc : fle (axStep b.x r.orig.x r.dir.x J').max
        (axStep b.x r.orig.x r.dir.x J').min = true :=
      fle_trans (fle_trans inv1.2 c1) inv1.1
    simp [aabbHit, hc] at h
  · by_cases c2 : fle (axStep b.y r.orig.y r.dir.y (axStep b.x r.orig.x r.dir.x J)).max
        (axStep b.y r.orig.y r.dir.y (axStep b.x r.orig.x r.dir.x J)).min = true
    · exfalso
      have hc : fle (axStep b.y r.orig.y r.dir.y (axStep b.x r.orig.x r.dir.x J')).max
          (axStep b.y r.orig.y r.dir.y (axStep b.x r.orig.x r.dir.x J')).min = true :=
        fle_trans (fle_trans inv2.2 c2) inv2.1
      simp [aabbHit, hc, ite_self] at h
    · by_cases c3 : fle (axStep b.z r.orig.z r.dir.z (axStep b.y r.orig.y r.dir.y
          (axStep b.x r.orig.x r.dir.x J))).max
          (axStep b.z r.orig.z r.dir.z (axStep b.y r.orig.y r.dir.y
          (axStep b.x r.orig.x r.dir.x J))).min = true
      · exfalso
        have hc : fle (axStep b.z r.orig.z r.dir.z (axStep b.y r.orig.y r.dir.y
            (axStep b.x r.orig.x r.dir.x J'))).max
            (axStep b.z r.orig.z r.dir.z (axStep b.y r.orig.y r.dir.y
            (axStep b.x r.orig.x r.dir.x J'))).min = true :=
          fle_trans (fle_trans inv3.2 c3) inv3.1
        simp [aabbHit, hc, ite_self] at h
      · simp [aabbHit, c1, c2, c3]

/-! ### Enclosure facts about the union boxes built by `BVHNode::new` -/

theorem fle_of_not_fle {a b : F} (ha : a ≠ .nan) (hb : b ≠ .nan)
    (h : ¬ fle a b = true) : fle b a = true := by
  cases a <;> cases b <;> simp_all [fle] <;> linarith

theorem flt_of_not_fle {a b : F} (ha : a ≠ .nan) (hb : b ≠ .nan)
    (h : ¬ fle a b = true) : flt b a = true := by
  cases a <;> cases b <;> simp_all [fle, flt] <;> linarith

theorem fle_fmin_left {a b : F} (ha : a ≠ .nan) (hb : b ≠ .nan) :
    fle (fmin a b) a = true := by
  unfold fmin
  simp only [ha, hb, if_false]
  by_cases h : fle a b = true
  · simp [h, fle_refl ha]
  · simp [h, fle_of_not_fle ha hb h]

theorem fle_fmin_right {a b : F} (ha : a ≠ .nan) (hb : b ≠ .nan) :
    fle (fmin a b) b = true := by
  unfold fmin
  simp only [ha, hb, if_false]
  by_cases h : fle a b = true
  · simp [h]
  · simp [h, fle_refl hb]

theorem fle_fmax_left {a b : F} (ha : a ≠ .nan) (hb : b ≠ .nan) :
    fle a (fmax a b) = true := by
  unfold fmax
  simp only [ha, hb, if_false]
  by_cases h : fle b a = true
  · simp [h, fle_refl ha]
  · simp [h, fle_of_not_fle hb ha h]

theorem fle_fmax_right {a b : F} (ha : a ≠ .nan) (hb : b ≠ .nan) :
    fle b (fmax a b) = true := by
  unfold fmax
  simp only [ha, hb, if_false]
  by_cases h : fle b a = true
  · simp [h]
  · simp [h, fle_refl hb]

theorem fmin_nonnan {a b : F} (ha : a ≠ .nan) (hb : b ≠ .nan) : fmin a b ≠ .nan := by
  unfold fmin
  simp only [ha, hb, if_false]
  by_cases h : fle a b = true <;> simp [h, ha, hb]

theorem fmax_nonnan {a b : F} (ha : a ≠ .nan) (hb : b ≠ .nan) : fmax a b ≠ .nan := by
  unfold fmax
  simp only [ha, hb, if_false]
  by_cases h : fle b a = true <;> simp [h, ha, hb]

theorem padAx_widens {i : IntervalF} (hmin : i.min ≠ .nan) (hmax : i.max ≠ .nan) :
    fle (padAx i).min i.min = true ∧ fle i.max (padAx i).max = true ∧
    (padAx i).min ≠ .nan ∧ (padAx i).max ≠ .nan := by
  unfold padAx intoExpand
  have hd : fdiv aabbDelta (.fin 2) = .fin (1 / 20000) := by norm_num [aabbDelta, fdiv]
  by_cases h : flt (iSize i) aabbDelta = true <;> simp only [h, if_true, if_false]
  · rw [hd]
    refine ⟨?_, ?_, ?_, ?_⟩
    · cases hm : i.min <;> simp_all [fsub, fadd, fneg, fle] <;> linarith
    · cases hm : i.max <;> simp_all [fadd, fle] <;> linarith
    · cases hm : i.min <;> simp_all [fsub, fadd, fneg]
    · cases hm : i.max <;> simp_all [fadd]
  · exact ⟨fle_refl hmin, fle_refl hmax, hmin, hmax⟩

/-- Per-axis facts about `from_aabbs`: the padded union interval encloses
both inputs and stays `nan`-free. -/
theorem union_axis {a b : IntervalF}
    (ha1 : a.min ≠ .nan) (ha2 : a.max ≠ .nan) (hb1 : b.min ≠ .nan) (hb2 : b.max ≠ .nan) :
    fle (padAx (fromIntervals a b)).min a.min = true ∧
    fle a.max (padAx (fromIntervals a b)).max = true ∧
    fle (padAx (fromIntervals a b)).min b.min = true ∧
    fle b.max (padAx (fromIntervals a b)).max = true ∧
    (padAx (fromIntervals a b)).min ≠ .nan ∧ (padAx (fromIntervals a b)).max ≠ .nan := by
  have hm : (fromIntervals a b).min = fmin a.min b.min := rfl
  have hM : (fromIntervals a b).max = fmax a.max b.max := rfl
  have hmn : (fromIntervals a b).min ≠ .nan := by rw [hm]; exact fmin_nonnan ha1 hb1
  have hMn : (fromIntervals a b).max ≠ .nan := by rw [hM]; exact fmax_nonnan ha2 hb2
  obtain ⟨w1, w2, w3, w4⟩ := padAx_widens hmn hMn
  refine ⟨?_, ?_, ?_, ?_, w3, w4⟩
  · exact fle_trans w1 (by rw [hm]; exact fle_fmin_left ha1 hb1)
  · exact fle_trans (by rw [hM]; exact fle_fmax_left ha2 hb2) w2
  · exact fle_trans w1 (by rw [hm]; exact fle_fmin_right ha1 hb1)
  · exact fle_trans (by rw [hM]; exact fle_fmax_right ha2 hb2) w2

theorem fromAabbs_facts {b0 b1 : AABBF} (h0 : BoxNN b0) (h1 : BoxNN b1) :
    Encloses (fromAabbs b0 b1) b0 ∧ Encloses (fromAabbs b0 b1) b1 ∧
    BoxNN (fromAabbs b0 b1) := by
  have hax : ∀ k, AABBF.get (fromAabbs b0 b1) k =
      padAx (fromIntervals (AABBF.get b0 k) (AABBF.get b1 k)) := by
    intro k
    match k with
    | 0 => rfl
    | 1 => rfl
    | Nat.succ (Nat.succ n) => rfl
  refine ⟨fun k => ?_, fun k => ?_, fun k => ?_⟩ <;>
    rw [hax k] <;>
    obtain ⟨u1, u2, u3, u4, u5, u6⟩ :=
      union_axis (h0 k).1 (h0 k).2 (h1 k).1 (h1 k).2
  · exact ⟨u1, u2⟩
  · exact ⟨u3, u4⟩
  · exact ⟨u5, u6⟩

theorem encloses_refl {b : AABBF} (h : BoxNN b) : Encloses b b :=
  fun k => ⟨fle_refl (h k).1, fle_refl (h k).2⟩

theorem encloses_trans {a b c : AABBF} (h1 : Encloses a b) (h2 : Encloses b c) :
    Encloses a c :=
  fun k => ⟨fle_trans (h1 k).1 (h2 k).1, fle_trans (h2 k).2 (h1 k).2⟩

theorem aabbEmpty_nn : BoxNN aabbEmpty := by
  intro k
  match k with
  | 0 => exact ⟨by simp [aabbEmpty, iEmpty, AABBF.get], by simp [aabbEmpty, iEmpty, AABBF.get]⟩
  | 1 => exact ⟨by simp [aabbEmpty, iEmpty, AABBF.get], by simp [aabbEmpty, iEmpty, AABBF.get]⟩
  | Nat.succ (Nat.succ n) =>
    exact ⟨by simp [aabbEmpty, iEmpty, AABBF.get], by simp [aabbEmpty, iEmpty, AABBF.get]⟩

theorem foldBox_facts (L : List Obj) (h : ∀ o ∈ L, BoxNN o.box) :
    ∀ init, BoxNN init →
      BoxNN (L.foldl (fun bb o => fromAabbs bb o.box) init) ∧
      Encloses (L.foldl (fun bb o => fromAabbs bb o.box) init) init ∧
      ∀ o ∈ L, Encloses (L.foldl (fun bb o => fromAabbs bb o.box) init) o.box := by
  induction L with
  | nil =>
    intro init hinit
    exact ⟨hinit, encloses_refl hinit, by simp⟩
  | cons o L ih =>
    intro init hinit
    simp only [List.foldl_cons]
    obtain ⟨e0, e1, enn⟩ := fromAabbs_facts hinit (h o (by simp))
    obtain ⟨f1, f2, f3⟩ := ih (fun o' ho' => h o' (by simp [ho'])) (fromAabbs init o.box) enn
    refine ⟨f1, encloses_trans f2 e0, ?_⟩
    intro o' ho'
    rcases List.mem_cons.1 ho' with rfl | ho'
    · exact encloses_trans f2 e1
    · exact f3 o' ho'

theorem spanBox_facts {L : List Obj} (h : ∀ o ∈ L, BoxNN o.box) :
    BoxNN (spanBox L) ∧ ∀ o ∈ L, Encloses (spanBox L) o.box := by
  obtain ⟨f1, -, f3⟩ := foldBox_facts L h aabbEmpty aabbEmpty_nn
  exact ⟨f1, f3⟩

/-- Well-formed BVH trees: every internal node's box encloses the boxes of
all objects below it. -/
inductive WFT : BVH → Prop where
  | leaf (o : Obj) : WFT (.leaf o)
  | node {lc rc : BVH} {box : AABBF} : WFT lc → WFT rc →
      (∀ o ∈ lc.leaves ++ rc.leaves, Encloses box o.box) → WFT (.node lc rc box)

theorem build_big_eq (o1 o2 o3 : Obj) (rest : List Obj) :
    BVH.build (o1 :: o2 :: o3 :: rest) =
      .node (BVH.build (((o1 :: o2 :: o3 :: rest).mergeSort
          (boxComp (longestAxis (spanBox (o1 :: o2 :: o3 :: rest))))).take
          (((o1 :: o2 :: o3 :: rest).mergeSort
          (boxComp (longestAxis (spanBox (o1 :: o2 :: o3 :: rest))))).length / 2)))
        (BVH.build (((o1 :: o2 :: o3 :: rest).mergeSort
          (boxComp (longestAxis (spanBox (o1 :: o2 :: o3 :: rest))))).drop
          (((o1 :: o2 :: o3 :: rest).mergeSort
          (boxComp (longestAxis (spanBox (o1 :: o2 :: o3 :: rest))))).length / 2)))
        (spanBox (o1 :: o2 :: o3 :: rest)) := by
  rw [BVH.build]

theorem leaves_build_mem : ∀ (n : Nat) (L : List Obj), L.length ≤ n → L ≠ [] →
    ∀ o, o ∈ (BVH.build L).leaves ↔ o ∈ L := by
  intro n
  induction n with
  | zero =>
    intro L hl hne o
    cases L with
    | nil => exact absurd rfl hne
    | cons a t => simp at hl
  | succ n ih =>
    intro L hl hne o
    match L with
    | [] => exact absurd rfl hne
    | [o1] => simp [BVH.build, BVH.leaves]
    | [o1, o2] => simp [BVH.build, BVH.leaves]
    | o1 :: o2 :: o3 :: rest =>
      rw [build_big_eq]
      have hs : ((o1 :: o2 :: o3 :: rest).mergeSort
          (boxComp (longestAxis (spanBox (o1 :: o2 :: o3 :: rest))))).length =
          (o1 :: o2 :: o3 :: rest).length := List.length_mergeSort _
      have h3 : 3 ≤ (o1 :: o2 :: o3 :: rest).length := by simp
      have hlen : (o1 :: o2 :: o3 :: rest).length ≤ n + 1 := hl
      have htake : (((o1 :: o2 :: o3 :: rest).mergeSort
          (boxComp (longestAxis (spanBox (o1 :: o2 :: o3 :: rest))))).take
          (((o1 :: o2 :: o3 :: rest).mergeSort
          (boxComp (longestAxis (spanBox (o1 :: o2 :: o3 :: rest))))).length / 2)).length ≤ n := by
        simp only [List.length_take, hs]
        omega
      have hdrop : (((o1 :: o2 :: o3 :: rest).mergeSort
          (boxComp (longestAxis (spanBox (o1 :: o2 :: o3 :: rest))))).drop
          (((o1 :: o2 :: o3 :: rest).mergeSort
          (boxComp (longestAxis (spanBox (o1 :: o2 :: o3 :: rest))))).length / 2)).length ≤ n := by
        simp only [List.length_drop, hs]
        omega
      have hw1 : (((o1 :: o2 :: o3 :: rest).mergeSort
          (boxComp (longestAxis (spanBox (o1 :: o2 :: o3 :: rest))))).take
          (((o1 :: o2 :: o3 :: rest).mergeSort
          (boxComp (longestAxis (spanBox (o1 :: o2 :: o3 :: rest))))).length / 2)) ≠ [] := by
        apply List.ne_nil_of_length_pos
        simp only [List.length_take, hs]
        omega
      have hw2 : (((o1 :: o2 :: o3 :: rest).mergeSort
          (boxComp (longestAxis (spanBox (o1 :: o2 :: o3 :: rest))))).drop
          (((o1 :: o2 :: o3 :: rest).mergeSort
          (boxComp (longestAxis (spanBox (o1 :: o2 :: o3 :: rest))))).length / 2)) ≠ [] := by
        apply List.ne_nil_of_length_pos
        simp only [List.length_drop, hs]
        omega
      show o ∈ (BVH.leaves _ ++ BVH.leaves _) ↔ _
      rw [List.mem_append, ih _ htake hw1 o, ih _ hdrop hw2 o, ← List.mem_append,
        List.take_append_drop, List.mem_mergeSort]

theorem build_wf : ∀ (n : Nat) (L : List Obj), L.length ≤ n →
    (∀ o ∈ L, BoxNN o.box) → WFT (BVH.build L) := by
  intro n
  induction n with
  | zero =>
    intro L hl h
    cases L with
    | nil =>
      rw [show BVH.build [] = .leaf ⟨fun _ _ => none, aabbEmpty⟩ from by rw [BVH.build]]
      exact WFT.leaf _
    | cons a t => simp at hl
  | succ n ih =>
    intro L hl h
    match L with
    | [] =>
      rw [show BVH.build [] = .leaf ⟨fun _ _ => none, aabbEmpty⟩ from by rw [BVH.build]]
      exact WFT.leaf _
    | [o1] =>
      rw [show BVH.build [o1] = .node (.leaf o1) (.leaf o1) (spanBox [o1]) from by
        rw [BVH.build]]
      refine WFT.node (WFT.leaf o1) (WFT.leaf o1) ?_
      intro o ho
      have : o = o1 := by
        simp [BVH.leaves] at ho
        exact ho
      subst this
      exact (spanBox_facts h).2 o (by simp)
    | [o1, o2] =>
      rw [show BVH.build [o1, o2] = .node (.leaf o1) (.leaf o2) (spanBox [o1, o2]) from by
        rw [BVH.build]]
      refine WFT.node (WFT.leaf o1) (WFT.leaf o2) ?_
      intro o ho
      have : o = o1 ∨ o = o2 := by
        simp [BVH.leaves] at ho
        exact ho
      rcases this with rfl | rfl
      · exact (spanBox_facts h).2 o (by simp)
      · exact (spanBox_facts h).2 o (by simp)
    | o1 :: o2 :: o3 :: rest =>
      rw [build_big_eq]
      have hs : ((o1 :: o2 :: o3 :: rest).mergeSort
          (boxComp (longestAxis (spanBox (o1 :: o2 :: o3 :: rest))))).length =
          (o1 :: o2 :: o3 :: rest).length := List.length_mergeSort _
      have h3 : 3 ≤ (o1 :: o2 :: o3 :: rest).length := by simp
      have hlen : (o1 :: o2 :: o3 :: rest).length ≤ n + 1 := hl
      have hsubT : ∀ o ∈ (((o1 :: o2 :: o3 :: rest).mergeSort
          (boxComp (longestAxis (spanBox (o1 :: o2 :: o3 :: rest))))).take
          (((o1 :: o2 :: o3 :: rest).mergeSort
          (boxComp (longestAxis (spanBox (o1 :: o2 :: o3 :: rest))))).length / 2)),
          o ∈ (o1 :: o2 :: o3 :: rest) := by
        intro o ho
        exact List.mem_mergeSort.1 (List.take_subset _ _ ho)
      have hsubD : ∀ o ∈ (((o1 :: o2 :: o3 :: rest).mergeSort
          (boxComp (longestAxis (spanBox (o1 :: o2 :: o3 :: rest))))).drop
          (((o1 :: o2 :: o3 :: rest).mergeSort
          (boxComp (longestAxis (spanBox (o1 :: o2 :: o3 :: rest))))).length / 2)),
          o ∈ (o1 :: o2 :: o3 :: rest) := by
        intro o ho
        exact List.mem_mergeSort.1 (List.drop_subset _ _ ho)
      have htake : (((o1 :: o2 :: o3 :: rest).mergeSort
          (boxComp (longestAxis (spanBox (o1 :: o2 :: o3 :: rest))))).take
          (((o1 :: o2 :: o3 :: rest).mergeSort
          (boxComp (longestAxis (spanBox (o1 :: o2 :: o3 :: rest))))).length / 2)).length ≤ n := by
        simp only [List.length_take, hs]
        omega
      have hdrop : (((o1 :: o2 :: o3 :: rest).mergeSort
          (boxComp (longestAxis (spanBox (o1 :: o2 :: o3 :: rest))))).drop
          (((o1 :: o2 :: o3 :: rest).mergeSort
          (boxComp (longestAxis (spanBox (o1 :: o2 :: o3 :: rest))))).length / 2)).length ≤ n := by
        simp only [List.length_drop, hs]
        omega
      have hw1 : (((o1 :: o2 :: o3 :: rest).mergeSort
          (boxComp (longestAxis (spanBox (o1 :: o2 :: o3 :: rest))))).take
          (((o1 :: o2 :: o3 :: rest).mergeSort
          (boxComp (longestAxis (spanBox (o1 :: o2 :: o3 :: rest))))).length / 2)) ≠ [] := by
        apply List.ne_nil_of_length_pos
        simp only [List.length_take, hs]
        omega
      have hw2 : (((o1 :: o2 :: o3 :: rest).mergeSort
          (boxComp (longestAxis (spanBox (o1 :: o2 :: o3 :: rest))))).drop
          (((o1 :: o2 :: o3 :: rest).mergeSort
          (boxComp (longestAxis (spanBox (o1 :: o2 :: o3 :: rest))))).length / 2)) ≠ [] := by
        apply List.ne_nil_of_length_pos
        simp only [List.length_drop, hs]
        omega
      refine WFT.node (ih _ htake fun o ho => h o (hsubT o ho))
        (ih _ hdrop fun o ho => h o (hsubD o ho)) ?_
      intro o ho
      rcases List.mem_append.1 ho with ho | ho
      · exact (spanBox_facts h).2 o (hsubT o ((leaves_build_mem n _ htake hw1 o).1 ho))
      · exact (spanBox_facts h).2 o (hsubD o ((leaves_build_mem n _ hdrop hw2 o).1 ho))

/-! ### The tree traversal equals the list scan over the tree's leaves -/

theorem treeHit_eq_listHit {T : BVH} (hw : WFT T)
    (hg : ∀ o ∈ T.leaves, GoodObj o) (hb : ∀ o ∈ T.leaves, BoxSound o)
    (r : RayF) : ∀ I, T.hitF r I = listHit T.leaves r I := by
  induction hw with
  | leaf o =>
    intro I
    show o.hit r I = listHit [o] r I
    unfold listHit
    simp only [List.foldl_cons, List.foldl_nil]
    have e : (⟨I.min, I.max⟩ : IntervalF) = I := rfl
    cases hq : o.hit r I with
    | none => simp [hlStep, e, hq]
    | some hr => simp [hlStep, e, hq]
  | node hwl hwr henc ihl ihr =>
    rename_i lc rc box
    intro I
    have hgl : ∀ o ∈ lc.leaves, GoodObj o := fun o ho =>
      hg o (by simp [BVH.leaves, ho])
    have hgr : ∀ o ∈ rc.leaves, GoodObj o := fun o ho =>
      hg o (by simp [BVH.leaves, ho])
    have hbl : ∀ o ∈ lc.leaves, BoxSound o := fun o ho =>
      hb o (by simp [BVH.leaves, ho])
    have hbr : ∀ o ∈ rc.leaves, BoxSound o := fun o ho =>
      hb o (by simp [BVH.leaves, ho])
    show (BVH.node lc rc box).hitF r I = listHit (lc.leaves ++ rc.leaves) r I
    rw [listHit_append]
    by_cases hbox : aabbHit box r I = true
    · cases hL : listHit lc.leaves r I with
      | none =>
        unfold BVH.hitF
        rw [if_pos hbox, ihl hgl hbl I, hL]
        exact ihr hgr hbr I
      | some hA =>
        unfold BVH.hitF
        rw [if_pos hbox, ihl hgl hbl I, hL]
        show (match rc.hitF r ⟨I.min, hA.t⟩ with
          | some hrR => some hrR
          | none => some hA) = (listHit rc.leaves r ⟨I.min, hA.t⟩).or (some hA)
        rw [ihr hgr hbr ⟨I.min, hA.t⟩]
        cases hR : listHit rc.leaves r ⟨I.min, hA.t⟩ with
        | none => simp [Option.or]
        | some hB => simp [Option.or]
    · unfold BVH.hitF
      rw [if_neg hbox]
      by_cases hdeg : I.max = .nan
      · rw [listHit_nan hgl (Or.inr hdeg), listHit_nan hgr (Or.inr hdeg)]
      · cases hL : listHit lc.leaves r I with
        | some hA =>
          exfalso
          obtain ⟨o, ho, c, hc, hh⟩ := listHit_source hgl hdeg hL
          have hin : Inside ⟨I.min, c⟩ hA.t := (hgl o ho).respects hh
          have hminn : I.min ≠ .nan := (flt_nan_iff hin.1).1
          have hsound : aabbHit box r ⟨I.min, c⟩ = true :=
            hbl o ho r ⟨I.min, c⟩ hA box hh (fun k => henc o (by simp [ho]) k)
          exact hbox (@aabbHit_mono _ _ ⟨I.min, c⟩ I ⟨fle_refl hminn, hc⟩ hsound)
        | none =>
          cases hR : listHit rc.leaves r I with
          | some hA =>
            exfalso
            obtain ⟨o, ho, c, hc, hh⟩ := listHit_source hgr hdeg hR
            have hin : Inside ⟨I.min, c⟩ hA.t := (hgr o ho).respects hh
            have hminn : I.min ≠ .nan := (flt_nan_iff hin.1).1
            have hsound : aabbHit box r ⟨I.min, c⟩ = true :=
              hbr o ho r ⟨I.min, c⟩ hA box hh (fun k => henc o (by simp [ho]) k)
            exact hbox (@aabbHit_mono _ _ ⟨I.min, c⟩ I ⟨fle_refl hminn, hc⟩ hsound)
          | none => rfl

/-! ### The `t`-level nearest-hit specification -/

/-- The hit parameter an object reports over an interval. -/
def hitT (o : Obj) (r : RayF) (I : IntervalF) : Option F := (o.hit r I).map HitRec.t

/-- Optional minimum under `fle`. -/
def tmin2 : Option F → Option F → Option F
  | none, b => b
  | some x, none => some x
  | some x, some y => some (if fle x y = true then x else y)

/-- The specification value: the minimum hit parameter over all objects,
each queried with the full interval. -/
def specHit (L : List Obj) (r : RayF) (I : IntervalF) : Option F :=
  L.foldl (fun acc o => tmin2 acc (hitT o r I)) none

/-- An optional value that is not `nan` when present. -/
def ONN (a : Option F) : Prop := ∀ x, a = some x → x ≠ .nan

theorem tmin2_none_right (a : Option F) : tmin2 a none = a := by
  cases a <;> rfl

theorem fle_nan_r (a : F) : fle a .nan = false := by
  cases a <;> simp [fle]

theorem fle_nan_l (a : F) : fle .nan a = false := by
  cases a <;> simp [fle]

theorem tmin2_assoc {a b c : Option F} (hb : ONN b) :
    tmin2 (tmin2 a b) c = tmin2 a (tmin2 b c) := by
  cases a with
  | none => rfl
  | some x =>
    cases b with
    | none => rfl
    | some y =>
      cases c with
      | none => rfl
      | some z =>
        have hy : y ≠ F.nan := hb y rfl
        show tmin2 (some (if fle x y = true then x else y)) (some z) =
          tmin2 (some x) (some (if fle y z = true then y else z))
        by_cases hxy : fle x y = true
        · by_cases hyz : fle y z = true
          · rw [if_pos hxy, if_pos hyz]
            show some (if fle x z = true then x else z) =
              some (if fle x y = true then x else y)
            rw [if_pos hxy, if_pos (fle_trans hxy hyz)]
          · rw [if_pos hxy, if_neg hyz]
        · by_cases hyz : fle y z = true
          · rw [if_neg hxy, if_pos hyz]
            show some (if fle y z = true then y else z) =
              some (if fle x y = true then x else y)
            rw [if_pos hyz, if_neg hxy]
          · rw [if_neg hxy, if_neg hyz]
            show some (if fle y z = true then y else z) =
              some (if fle x z = true then x else z)
            rw [if_neg hyz]
            by_cases hz : z = F.nan
            · subst hz
              rw [if_neg (by simp [fle_nan_r])]
            · by_cases hx : x = F.nan
              · subst hx
                rw [if_neg (by simp [fle_nan_l])]
              · have h1 : flt z y = true := flt_of_not_fle hy hz hyz
                have h2 : flt y x = true := flt_of_not_fle hx hy hxy
                rw [if_neg (by simp [not_fle_of_flt (flt_trans h1 h2)])]

theorem spec_fold_init (r : RayF) (I : IntervalF) :
    ∀ (L : List Obj), (∀ o ∈ L, ONN (hitT o r I)) →
    ∀ a, L.foldl (fun acc o => tmin2 acc (hitT o r I)) a = tmin2 a (specHit L r I) := by
  intro L
  induction L with
  | nil => intro hxs a; exact (tmin2_none_right a).symm
  | cons o L ih =>
    intro hxs a
    have hL : ∀ o' ∈ L, ONN (hitT o' r I) := fun o' ho' => hxs o' (by simp [ho'])
    show L.foldl _ (tmin2 a (hitT o r I)) = tmin2 a (specHit (o :: L) r I)
    rw [ih hL (tmin2 a (hitT o r I))]
    have : specHit (o :: L) r I = tmin2 (hitT o r I) (specHit L r I) := by
      show L.foldl _ (tmin2 none (hitT o r I)) = _
      rw [ih hL (tmin2 none (hitT o r I))]
      rfl
    rw [this, tmin2_assoc (hxs o (by simp))]

theorem spec_cons {r : RayF} {I : IntervalF} (o : Obj) (L : List Obj)
    (hL : ∀ o' ∈ L, ONN (hitT o' r I)) :
    specHit (o :: L) r I = tmin2 (hitT o r I) (specHit L r I) := by
  show L.foldl _ (tmin2 none (hitT o r I)) = _
  rw [spec_fold_init r I L hL (tmin2 none (hitT o r I))]
  rfl

theorem spec_none_iff {r : RayF} {I : IntervalF} : ∀ {L : List Obj},
    (∀ o ∈ L, ONN (hitT o r I)) →
    (specHit L r I = none ↔ ∀ o ∈ L, hitT o r I = none) := by
  intro L
  induction L with
  | nil => intro h; simp [specHit]
  | cons o L ih =>
    intro h
    have hL : ∀ o' ∈ L, ONN (hitT o' r I) := fun o' ho' => h o' (by simp [ho'])
    rw [spec_cons o L hL]
    constructor
    · intro he
      have hsplit : hitT o r I = none ∧ specHit L r I = none := by
        cases ha : hitT o r I <;> cases hb : specHit L r I <;>
          rw [ha, hb] at he <;> simp [tmin2] at he <;> exact ⟨rfl, rfl⟩
      intro o' ho'
      rcases List.mem_cons.1 ho' with rfl | ho'
      · exact hsplit.1
      · exact ((ih hL).1 hsplit.2) o' ho'
    · intro hall
      rw [hall o (by simp), (ih hL).2 (fun o' ho' => hall o' (by simp [ho']))]
      rfl

theorem spec_some_facts {r : RayF} {I : IntervalF} : ∀ {L : List Obj},
    (∀ o ∈ L, ONN (hitT o r I)) → ∀ {m : F}, specHit L r I = some m →
    (∃ o ∈ L, hitT o r I = some m) ∧
    (∀ o ∈ L, ∀ x, hitT o r I = some x → fle m x = true) := by
  intro L
  induction L with
  | nil => intro h m hm; simp [specHit] at hm
  | cons o L ih =>
    intro h m hm
    have hL : ∀ o' ∈ L, ONN (hitT o' r I) := fun o' ho' => h o' (by simp [ho'])
    rw [spec_cons o L hL] at hm
    cases ha : hitT o r I with
    | none =>
      rw [ha] at hm
      have hm' : specHit L r I = some m := hm
      obtain ⟨⟨o1, ho1, hh1⟩, hmin⟩ := ih hL hm'
      refine ⟨⟨o1, by simp [ho1], hh1⟩, ?_⟩
      intro o' ho' x hx
      rcases List.mem_cons.1 ho' with rfl | ho'
      · rw [ha] at hx
        exact absurd hx (by simp)
      · exact hmin o' ho' x hx
    | some v =>
      rw [ha] at hm
      have hv : v ≠ F.nan := h o (by simp) v ha
      cases hb : specHit L r I with
      | none =>
        rw [hb] at hm
        have hmv : m = v := by
          have : tmin2 (some v) none = some v := rfl
          rw [this] at hm
          exact (Option.some.injEq _ _ ▸ hm).symm
        subst hmv
        refine ⟨⟨o, by simp, ha⟩, ?_⟩
        intro o' ho' x hx
        rcases List.mem_cons.1 ho' with rfl | ho'
        · rw [ha] at hx
          have hxm : m = x := by simpa using hx
          rw [← hxm]
          exact fle_refl hv
        · rw [(spec_none_iff hL).1 hb o' ho'] at hx
          exact absurd hx (by simp)
      | some w =>
        rw [hb] at hm
        obtain ⟨⟨o1, ho1, hh1⟩, hmin⟩ := ih hL hb
        have hw : w ≠ F.nan := hL o1 ho1 w hh1
        by_cases hvw : fle v w = true
        · have hmv : m = v := by
            have : tmin2 (some v) (some w) = some v := by
              show some (if fle v w = true then v else w) = some v
              rw [if_pos hvw]
            rw [this] at hm
            exact (by simpa using hm.symm)
          subst hmv
          refine ⟨⟨o, by simp, ha⟩, ?_⟩
          intro o' ho' x hx
          rcases List.mem_cons.1 ho' with rfl | ho'
          · rw [ha] at hx
            have hxm : m = x := by simpa using hx
            rw [← hxm]
            exact fle_refl hv
          · exact fle_trans hvw (hmin o' ho' x hx)
        · have hmw : m = w := by
            have : tmin2 (some v) (some w) = some w := by
              show some (if fle v w = true then v else w) = some w
              rw [if_neg hvw]
            rw [this] at hm
            exact (by simpa using hm.symm)
          subst hmw
          refine ⟨⟨o1, by simp [ho1], hh1⟩, ?_⟩
          intro o' ho' x hx
          rcases List.mem_cons.1 ho' with rfl | ho'
          · rw [ha] at hx
            have hxm : v = x := by simpa using hx
            rw [← hxm]
            exact fle_of_not_fle hv hw hvw
          · exact hmin o' ho' x hx

theorem spec_ext {r : RayF} {I : IntervalF} {L1 L2 : List Obj}
    (h1 : ∀ o ∈ L1, ONN (hitT o r I)) (h2 : ∀ o ∈ L2, ONN (hitT o r I))
    (hmem : ∀ o, o ∈ L1 ↔ o ∈ L2) : specHit L1 r I = specHit L2 r I := by
  cases e1 : specHit L1 r I with
  | none =>
    have hall := (spec_none_iff h1).1 e1
    exact ((spec_none_iff h2).2 (fun o ho => hall o ((hmem o).2 ho))).symm
  | some m =>
    obtain ⟨⟨o1, ho1, hh1⟩, hmin1⟩ := spec_some_facts h1 e1
    cases e2 : specHit L2 r I with
    | none =>
      have hall := (spec_none_iff h2).1 e2
      rw [hall o1 ((hmem o1).1 ho1)] at hh1
      exact absurd hh1 (by simp)
    | some m2 =>
      obtain ⟨⟨o2, ho2, hh2⟩, hmin2⟩ := spec_some_facts h2 e2
      have a1 : fle m m2 = true := hmin1 o2 ((hmem o2).2 ho2) m2 hh2
      have a2 : fle m2 m = true := hmin2 o1 ((hmem o1).1 ho1) m hh1
      rw [fle_antisymm a1 a2]

theorem good_onn {o : Obj} (h : GoodObj o) (r : RayF) (I : IntervalF) :
    ONN (hitT o r I) := by
  intro x hx
  unfold hitT at hx
  cases hq : o.hit r I with
  | none => rw [hq] at hx; exact absurd hx (by simp)
  | some hr =>
    rw [hq] at hx
    have : hr.t = x := by simpa using hx
    rw [← this]
    exact (flt_nan_iff (h.respects hq).1).2

/-- Narrowing the upper bound of the query interval keeps exactly the hits
strictly below the new bound. -/
theorem hitT_shrink {o : Obj} (h : GoodObj o) {r : RayF} {I : IntervalF} {c : F}
    (hmin : I.min ≠ .nan) (hc : fle c I.max = true) :
    hitT o r ⟨I.min, c⟩ =
      match hitT o r I with
      | some tO => if flt tO c = true then some tO else none
      | none => none := by
  have hsub : Subiv ⟨I.min, c⟩ I := ⟨fle_refl hmin, hc⟩
  cases hq : o.hit r I with
  | none =>
    have : o.hit r ⟨I.min, c⟩ = none := h.mono hsub hq
    simp [hitT, this, hq]
  | some hO =>
    have hto : hitT o r I = some hO.t := by simp [hitT, hq]
    rw [hto]
    by_cases hflt : flt hO.t c = true
    · have hin : Inside ⟨I.min, c⟩ hO.t := ⟨(h.respects hq).1, hflt⟩
      obtain ⟨hr', hh', ht'⟩ := h.stable hq hsub hin
      simp [hitT, hh', ht', hflt]
    · have hcut : fle c hO.t = true :=
        fle_of_not_flt (flt_nan_iff (h.respects hq).1).2 (fle_nan_iff hc).1 hflt
      have : o.hit r ⟨I.min, c⟩ = none := h.cut hq hsub hcut
      simp [hitT, this, hflt]

/-- The running fold of `HittableList::hit` computes the optional minimum of
the full-interval hit parameters, combined with the incoming state. -/
theorem listHit_spec_aux (r : RayF) (I : IntervalF) :
    ∀ (L : List Obj), (∀ o ∈ L, GoodObj o) →
    ∀ st : Option HitRec × F,
      ((st.1 = none ∧ st.2 = I.max) ∨
       (∃ h, st.1 = some h ∧ st.2 = h.t ∧ flt I.min h.t = true ∧
         fle h.t I.max = true)) →
      ((L.foldl (hlStep r I.min) st).1).map HitRec.t =
        tmin2 (st.1.map HitRec.t) (specHit L r I) := by
  intro L
  induction L with
  | nil =>
    intro hg st hst
    exact (tmin2_none_right _).symm
  | cons o L ih =>
    intro hg st hst
    have hgo : GoodObj o := hg o (by simp)
    have hgL : ∀ o' ∈ L, GoodObj o' := fun o' ho' => hg o' (by simp [ho'])
    have honn : ∀ o' ∈ L, ONN (hitT o' r I) := fun o' ho' => good_onn (hgL o' ho') r I
    simp only [List.foldl_cons]
    rw [spec_cons o L honn]
    rcases hst with ⟨hn, hc⟩ | ⟨h, hsome, hct, hlo, hhi⟩
    · have hsteta : (⟨I.min, st.2⟩ : IntervalF) = I := by rw [hc]
      cases hq : o.hit r I with
      | some hO =>
        have e : hlStep r I.min st o = (some hO, hO.t) := by
          simp [hlStep, hsteta, hq]
        rw [e]
        have hin : Inside I hO.t := hgo.respects hq
        rw [ih hgL (some hO, hO.t)
          (Or.inr ⟨hO, rfl, rfl, hin.1, fle_of_flt hin.2⟩)]
        rw [hn]
        have : hitT o r I = some hO.t := by simp [hitT, hq]
        rw [this]
        rfl
      | none =>
        have e : hlStep r I.min st o = st := by
          simp [hlStep, hsteta, hq]
        rw [e, ih hgL st (Or.inl ⟨hn, hc⟩), hn]
        have : hitT o r I = none := by simp [hitT, hq]
        rw [this]
        rfl
    · have hminn : I.min ≠ .nan := (flt_nan_iff hlo).1
      have htnn : h.t ≠ .nan := (flt_nan_iff hlo).2
      have hshr := hitT_shrink (r := r) hgo hminn hhi
      have hsteta : (⟨I.min, st.2⟩ : IntervalF) = (⟨I.min, h.t⟩ : IntervalF) := by
        rw [hct]
      cases hq : hitT o r I with
      | none =>
        rw [hq] at hshr
        have hqq : o.hit r ⟨I.min, h.t⟩ = none := by
          unfold hitT at hshr
          cases hq2 : o.hit r ⟨I.min, h.t⟩ with
          | none => rfl
          | some hr' => rw [hq2] at hshr; exact absurd hshr (by simp)
        have e : hlStep r I.min st o = st := by
          simp [hlStep, hsteta, hqq]
        rw [e, ih hgL st (Or.inr ⟨h, hsome, hct, hlo, hhi⟩), hsome]
        rfl
      | some tO =>
        have htOnn : tO ≠ .nan := good_onn hgo r I tO hq
        rw [hq] at hshr
        by_cases hflt : flt tO h.t = true
        · simp only [hflt, if_true] at hshr
          obtain ⟨hr', hqq, htr⟩ : ∃ hr', o.hit r ⟨I.min, h.t⟩ = some hr' ∧ hr'.t = tO := by
            unfold hitT at hshr
            cases hq2 : o.hit r ⟨I.min, h.t⟩ with
            | none => rw [hq2] at hshr; exact absurd hshr (by simp)
            | some hr' =>
              rw [hq2] at hshr
              exact ⟨hr', rfl, by simpa using hshr⟩
          have e : hlStep r I.min st o = (some hr', hr'.t) := by
            simp [hlStep, hsteta, hqq]
          rw [e]
          have hin' : Inside ⟨I.min, h.t⟩ hr'.t := hgo.respects hqq
          have hle' : fle hr'.t I.max = true := by
            rw [htr]
            exact fle_of_flt (flt_of_flt_of_fle hflt hhi)
          rw [ih hgL (some hr', hr'.t) (Or.inr ⟨hr', rfl, rfl, hin'.1, hle'⟩)]
          rw [hsome]
          simp only [Option.map_some']
          rw [htr]
          rw [← tmin2_assoc (b := some tO) (fun x hx => by
            rw [show tO = x from by simpa using hx] at htOnn
            exact htOnn)]
          have : tmin2 (some h.t) (some tO) = some tO := by
            show some (if fle h.t tO = true then h.t else tO) = some tO
            rw [if_neg (by simp [not_fle_of_flt hflt])]
          rw [this]
        · simp only [hflt, if_false, Bool.false_eq_true] at hshr
          have hqq : o.hit r ⟨I.min, h.t⟩ = none := by
            unfold hitT at hshr
            cases hq2 : o.hit r ⟨I.min, h.t⟩ with
            | none => rfl
            | some hr' => rw [hq2] at hshr; exact absurd hshr (by simp)
          have e : hlStep r I.min st o = st := by
            simp [hlStep, hsteta, hqq]
          rw [e, ih hgL st (Or.inr ⟨h, hsome, hct, hlo, hhi⟩), hsome]
          simp only [Option.map_some']
          rw [← tmin2_assoc (b := some tO) (fun x hx => by
            rw [show tO = x from by simpa using hx] at htOnn
            exact htOnn)]
          have : tmin2 (some h.t) (some tO) = some h.t := by
            show some (if fle h.t tO = true then h.t else tO) = some h.t
            rw [if_pos (fle_of_not_flt htOnn htnn hflt)]
          rw [this]

/-- `HittableList::hit` returns exactly the minimum full-interval hit
parameter over its objects (at the `t` level), under C1's object contract. -/
theorem listHit_spec {L : List Obj} {r : RayF} {I : IntervalF}
    (hg : ∀ o ∈ L, GoodObj o) :
    (listHit L r I).map HitRec.t = specHit L r I := by
  have := listHit_spec_aux r I L hg (none, I.max) (Or.inl ⟨rfl, rfl⟩)
  unfold listHit
  rw [this]
  rfl

/-! ### C1: BVH vs. linear scan -/

/-- C1, amended: for a finite non-empty object list whose members are
deterministic, respect the query interval and return the nearest hit of an
underlying hit set (`GoodObj`), *and* whose bounding boxes are sound for the
slab test (`BoxSound`, with `nan`-free boxes — a `nan` box min makes the
build's comparator panic), the BVH built by `BVHNode::new` and the
`HittableList` scan agree on every ray and interval: one returns a hit
exactly when the other does, with equal hit parameter `t`.  The original
claim omits the bounding-box soundness hypothesis and is refuted by the
counterexample below. -/
theorem bvh_list_equivalence (L : List Obj) (hne : L ≠ []) (r : RayF) (I : IntervalF)
    (hg : ∀ o ∈ L, GoodObj o) (hbs : ∀ o ∈ L, BoxSound o)
    (hnn : ∀ o ∈ L, BoxNN o.box) :
    ((BVH.build L).hitF r I).map HitRec.t = (listHit L r I).map HitRec.t := by
  have hmem := leaves_build_mem L.length L (le_refl _) hne
  have hgL : ∀ o ∈ (BVH.build L).leaves, GoodObj o := fun o ho => hg o ((hmem o).1 ho)
  have hbL : ∀ o ∈ (BVH.build L).leaves, BoxSound o := fun o ho => hbs o ((hmem o).1 ho)
  have hwf : WFT (BVH.build L) := build_wf L.length L (le_refl _) hnn
  rw [treeHit_eq_listHit hwf hgL hbL r I, listHit_spec hgL, listHit_spec hg]
  exact spec_ext (fun o ho => good_onn (hgL o ho) r I)
    (fun o ho => good_onn (hg o ho) r I) hmem

/-- A box away from the origin along every axis. -/
def badBox : AABBF := ⟨⟨.fin 10, .fin 11⟩, ⟨.fin 10, .fin 11⟩, ⟨.fin 10, .fin 11⟩⟩

def badRec : HitRec :=
  ⟨.fin 5, ⟨.fin 0, .fin 0, .fin 0⟩, true, ⟨.fin 1, .fin 0, .fin 0⟩, 0, .fin 0, .fin 0⟩

/-- An object that satisfies C1's stated hypotheses (deterministic,
interval-respecting, nearest-hit) but whose hits at `t = 5` lie outside its
bounding box `badBox`. -/
def badObj : Obj :=
  { hit := fun _ J =>
      if flt J.min (.fin 5) = true ∧ flt (.fin 5) J.max = true then some badRec else none,
    box := badBox }

def cxRay1 : RayF := ⟨⟨.fin 0, .fin 0, .fin 0⟩, ⟨.fin 1, .fin 0, .fin 0⟩, .fin 0⟩

theorem badObj_good : GoodObj badObj := by
  refine ⟨fun _ t => t = .fin 5, ?_, ?_, ?_⟩
  · intro r t ht
    rw [ht]
    simp
  · intro r J hr hh
    by_cases hcond : flt J.min (.fin 5) = true ∧ flt (.fin 5) J.max = true
    · simp only [badObj, if_pos hcond] at hh
      have he : badRec = hr := by simpa using hh
      rw [← he]
      exact ⟨rfl, hcond, fun t' ht' _ => by rw [ht']; exact fle_refl (by simp [badRec])⟩
    · simp only [badObj, if_neg hcond] at hh
      exact absurd hh (by simp)
  · intro r J hn t' ht' hin
    rw [ht'] at hin
    by_cases hcond : flt J.min (.fin 5) = true ∧ flt (.fin 5) J.max = true
    · simp only [badObj, if_pos hcond] at hn
      exact absurd hn (by simp)
    · exact hcond hin

/-- C1, counterexample: the single object `badObj` satisfies the claim's
stated hypotheses, yet the BVH root's box test prunes the ray (the box does
not contain the object's hits), so the BVH reports no hit while the
`HittableList` scan reports the hit at `t = 5`. -/
theorem bvh_list_equivalence_cx :
    GoodObj badObj ∧
    (BVH.build [badObj]).hitF cxRay1 ⟨.fin 0, .fin 100⟩ = none ∧
    listHit [badObj] cxRay1 ⟨.fin 0, .fin 100⟩ = some badRec := by
  refine ⟨badObj_good, ?_, ?_⟩
  · rw [show BVH.build [badObj] =
        .node (.leaf badObj) (.leaf badObj) (spanBox [badObj]) from by rw [BVH.build]]
    have hsb : spanBox [badObj] = badBox := by
      simp [spanBox, fromAabbs, aabbEmpty, iEmpty, fromIntervals, fmin, fmax, fle,
        padToMinimums, padAx, iSize, fsub, fadd, fneg, flt, intoExpand, fdiv,
        aabbDelta, badObj, badBox]
      norm_num
    have hmiss : aabbHit badBox cxRay1 ⟨.fin 0, .fin 100⟩ = false := by
      simp [aabbHit, axStep, slabT0, slabT1, badBox, cxRay1, fdiv, fsub, fadd,
        fneg, fmul, flt, fle]
      norm_num
    unfold BVH.hitF
    rw [hsb, hmiss]
    simp
  · simp [listHit, hlStep, badObj, flt]
    norm_num

/-- `AABB::universe()`: every axis `(-inf, +inf)`. -/
def univBox : AABBF := ⟨⟨.ninf, .pinf⟩, ⟨.ninf, .pinf⟩, ⟨.ninf, .pinf⟩⟩

def wRay : RayF := ⟨⟨.fin 0, .fin 0, .fin 0⟩, ⟨.fin 1, .fin 1, .fin 1⟩, .fin 0⟩

def wRec : HitRec :=
  ⟨.fin 5, ⟨.fin 5, .fin 5, .fin 5⟩, true, ⟨.fin 1, .fin 0, .fin 0⟩, 0, .fin 0, .fin 0⟩

/-- A well-behaved witness object: hits only the concrete ray `wRay`, at
`t = 5`, with the universe bounding box. -/
def wObj : Obj :=
  { hit := fun r J =>
      if r = wRay ∧ flt J.min (.fin 5) = true ∧ flt (.fin 5) J.max = true then
        some wRec
      else none,
    box := univBox }

theorem wObj_good : GoodObj wObj := by
  refine ⟨fun r t => r = wRay ∧ t = .fin 5, ?_, ?_, ?_⟩
  · intro r t ht
    rw [ht.2]
    simp
  · intro r J hr hh
    by_cases hcond : r = wRay ∧ flt J.min (.fin 5) = true ∧ flt (.fin 5) J.max = true
    · simp only [wObj, if_pos hcond] at hh
      have he : wRec = hr := by simpa using hh
      rw [← he]
      exact ⟨⟨hcond.1, rfl⟩, ⟨hcond.2.1, hcond.2.2⟩,
        fun t' ht' _ => by rw [ht'.2]; exact fle_refl (by simp [wRec])⟩
    · simp only [wObj, if_neg hcond] at hh
      exact absurd hh (by simp)
  · intro r J hn t' ht' hin
    rw [ht'.2] at hin
    by_cases hcond : r = wRay ∧ flt J.min (.fin 5) = true ∧ flt (.fin 5) J.max = true
    · simp only [wObj, if_pos hcond] at hn
      exact absurd hn (by simp)
    · exact hcond ⟨ht'.1, hin.1, hin.2⟩

theorem eq_ninf_of_fle {a : F} (h : fle a .ninf = true) : a = .ninf := by
  cases a <;> simp_all [fle]

theorem eq_pinf_of_fle {a : F} (h : fle .pinf a = true) : a = .pinf := by
  cases a <;> simp_all [fle]

theorem aabbHit_of_noop {b : AABBF} {r : RayF} {J : IntervalF}
    (h0 : axStep b.x r.orig.x r.dir.x J = J)
    (h1 : axStep b.y r.orig.y r.dir.y J = J)
    (h2 : axStep b.z r.orig.z r.dir.z J = J)
    (hJ : fle J.max J.min = false) :
    aabbHit b r J = true := by
  simp [aabbHit, h0, h1, h2, hJ]

theorem univ_axis_noop (t : IntervalF) :
    axStep ⟨F.ninf, F.pinf⟩ (.fin 0) (.fin 1) t = t := by
  apply axStep_noop
  · norm_num [slabT0, fdiv, fsub, fadd, fneg, fmul]
  · norm_num [slabT1, fdiv, fsub, fadd, fneg, fmul]

theorem wObj_sound : BoxSound wObj := by
  intro r J hr B hh henc
  have hcond : r = wRay ∧ flt J.min (.fin 5) = true ∧ flt (.fin 5) J.max = true := by
    by_contra hc
    simp only [wObj, if_neg hc] at hh
    exact absurd hh (by simp)
  obtain ⟨hrw, h1, h2⟩ := hcond
  subst hrw
  have b1 : B.x.min = F.ninf := eq_ninf_of_fle (henc 0).1
  have b2 : B.x.max = F.pinf := eq_pinf_of_fle (henc 0).2
  have b3 : B.y.min = F.ninf := eq_ninf_of_fle (henc 1).1
  have b4 : B.y.max = F.pinf := eq_pinf_of_fle (henc 1).2
  have b5 : B.z.min = F.ninf := eq_ninf_of_fle (henc 2).1
  have b6 : B.z.max = F.pinf := eq_pinf_of_fle (henc 2).2
  have hBx : B.x = (⟨F.ninf, F.pinf⟩ : IntervalF) := by rw [← b1, ← b2]
  have hBy : B.y = (⟨F.ninf, F.pinf⟩ : IntervalF) := by rw [← b3, ← b4]
  have hBz : B.z = (⟨F.ninf, F.pinf⟩ : IntervalF) := by rw [← b5, ← b6]
  have hJ : fle J.max J.min = false := not_fle_of_flt (flt_trans h1 h2)
  apply aabbHit_of_noop ?_ ?_ ?_ hJ
  · rw [hBx]
    exact univ_axis_noop J
  · rw [hBy]
    exact univ_axis_noop J
  · rw [hBz]
    exact univ_axis_noop J

theorem univBox_nn : BoxNN univBox := by
  intro k
  match k with
  | 0 => exact ⟨by simp [univBox, AABBF.get], by simp [univBox, AABBF.get]⟩
  | 1 => exact ⟨by simp [univBox, AABBF.get], by simp [univBox, AABBF.get]⟩
  | Nat.succ (Nat.succ n) =>
    exact ⟨by simp [univBox, AABBF.get], by simp [univBox, AABBF.get]⟩

/-- C1, witness: the amended equivalence applied to the one-object scene
`[wObj]`, the ray `wRay` and the interval `(0, 100)`, all hypotheses
discharged concretely. -/
theorem bvh_list_equivalence_witness :
    ((BVH.build [wObj]).hitF wRay ⟨.fin 0, .fin 100⟩).map HitRec.t =
    (listHit [wObj] wRay ⟨.fin 0, .fin 100⟩).map HitRec.t :=
  bvh_list_equivalence [wObj] (by simp) wRay ⟨.fin 0, .fin 100⟩
    (fun o ho => by rw [show o = wObj from by simpa using ho]; exact wObj_good)
    (fun o ho => by rw [show o = wObj from by simpa using ho]; exact wObj_sound)
    (fun o ho => by rw [show o = wObj from by simpa using ho]; exact univBox_nn)

/-! ### C3: interval narrowing inside `BVHNode::hit` -/

/-- The interval contract of a hit function: every reported hit parameter
lies strictly inside the query interval. -/
def ContractHit (f : RayF → IntervalF → Option HitRec) : Prop :=
  ∀ r J hr, f r J = some hr → Inside J hr.t

/-- C3: `BVHNode::hit` queries the left child with the full interval; on a
left hit at `t_left` it queries the right child over `(ray_t.min, t_left)`,
so — provided the children respect the query interval — any right hit is
strictly closer than `t_left`, and returning `hit_right.or(hit_left)` yields
the nearer of the two hits without comparing `t` explicitly. -/
theorem bvh_node_narrowing (lc rc : BVH) (box : AABBF) (r : RayF) (I : IntervalF)
    (recL : HitRec) (hcl : ContractHit lc.hitF) (hcr : ContractHit rc.hitF)
    (hbox : aabbHit box r I = true) (hl : lc.hitF r I = some recL) :
    (∀ recR, rc.hitF r ⟨I.min, recL.t⟩ = some recR →
      flt recR.t recL.t = true ∧ (BVH.node lc rc box).hitF r I = some recR) ∧
    (rc.hitF r ⟨I.min, recL.t⟩ = none →
      (BVH.node lc rc box).hitF r I = some recL) := by
  constructor
  · intro recR hr
    refine ⟨(hcr r ⟨I.min, recL.t⟩ recR hr).2, ?_⟩
    unfold BVH.hitF
    rw [if_pos hbox, hl]
    show (match rc.hitF r ⟨I.min, recL.t⟩ with
      | some hrR => some hrR
      | none => some recL) = some recR
    rw [hr]
  · intro hr
    unfold BVH.hitF
    rw [if_pos hbox, hl]
    show (match rc.hitF r ⟨I.min, recL.t⟩ with
      | some hrR => some hrR
      | none => some recL) = some recL
    rw [hr]

def recA : HitRec :=
  ⟨.fin 3, ⟨.fin 3, .fin 3, .fin 3⟩, true, ⟨.fin 1, .fin 0, .fin 0⟩, 0, .fin 0, .fin 0⟩

def recB : HitRec :=
  ⟨.fin 2, ⟨.fin 2, .fin 2, .fin 2⟩, true, ⟨.fin 1, .fin 0, .fin 0⟩, 1, .fin 0, .fin 0⟩

/-- A contract-respecting object hitting at `t = 3`. -/
def objA : Obj :=
  { hit := fun _ J =>
      if flt J.min (.fin 3) = true ∧ flt (.fin 3) J.max = true then some recA else none,
    box := univBox }

/-- A contract-respecting object hitting at `t = 2`. -/
def objB : Obj :=
  { hit := fun _ J =>
      if flt J.min (.fin 2) = true ∧ flt (.fin 2) J.max = true then some recB else none,
    box := univBox }

theorem objA_contract : ContractHit (BVH.leaf objA).hitF := by
  intro r J hr hh
  by_cases hcond : flt J.min (.fin 3) = true ∧ flt (.fin 3) J.max = true
  · have hh' : objA.hit r J = some hr := hh
    simp only [objA, if_pos hcond] at hh'
    have he : recA = hr := by simpa using hh'
    rw [← he]
    exact hcond
  · have hh' : objA.hit r J = some hr := hh
    simp only [objA, if_neg hcond] at hh'
    exact absurd hh' (by simp)

theorem objB_contract : ContractHit (BVH.leaf objB).hitF := by
  intro r J hr hh
  by_cases hcond : flt J.min (.fin 2) = true ∧ flt (.fin 2) J.max = true
  · have hh' : objB.hit r J = some hr := hh
    simp only [objB, if_pos hcond] at hh'
    have he : recB = hr := by simpa using hh'
    rw [← he]
    exact hcond
  · have hh' : objB.hit r J = some hr := hh
    simp only [objB, if_neg hcond] at hh'
    exact absurd hh' (by simp)

theorem univBox_hits_wRay : aabbHit univBox wRay ⟨.fin 0, .fin 10⟩ = true := by
  apply aabbHit_of_noop (univ_axis_noop _) (univ_axis_noop _) (univ_axis_noop _)
  simp [fle]

/-- C3, witness: on a node with left hit at `t = 3`, the right child queried
over the narrowed interval reports `t = 2 < 3`, and the node returns it. -/
theorem bvh_node_narrowing_witness :
    flt recB.t recA.t = true ∧
    (BVH.node (.leaf objA) (.leaf objB) univBox).hitF wRay ⟨.fin 0, .fin 10⟩ =
      some recB :=
  (bvh_node_narrowing (.leaf objA) (.leaf objB) univBox wRay ⟨.fin 0, .fin 10⟩ recA
      objA_contract objB_contract univBox_hits_wRay
      (by show objA.hit wRay ⟨.fin 0, .fin 10⟩ = some recA
          simp [objA, flt]
          norm_num)).1 recB
    (by show objB.hit wRay ⟨.fin 0, recA.t⟩ = some recB
        simp [objB, recA, flt]
        norm_num)

/-! ### C5 and C10: `ConstantMedium::hit` (from `constant_medium.rs`) -/

/-- `ConstantMedium`: the boundary's `hit` function, the precomputed
`neg_inv_density`, and the isotropic phase-function material handle. -/
structure MediumF where
  boundaryHit : RayF → IntervalF → Option HitRec
  negInvDensity : F
  phase : Nat

/-- `ConstantMedium::from`: stores `neg_inv_density = -1.0 / density`. -/
def mediumFrom (bnd : RayF → IntervalF → Option HitRec) (density : F)
    (phase : Nat) : MediumF :=
  ⟨bnd, fdiv (.fin (-1)) density, phase⟩

/-- The epsilon `0.0001` offsetting the exit search past the entry hit. -/
def mediumEps : F := .fin (1 / 10000)

/-- `if rec1.t < ray_t.min { rec1.t = ray_t.min }`: clip the entry
parameter up to the query minimum. -/
def clipLo (a m : F) : F := if flt a m = true then m else a

/-- `if rec2.t > ray_t.max { rec2.t = ray_t.max }`: clip the exit
parameter down to the query maximum. -/
def clipHi (b M : F) : F := if flt M b = true then M else b

/-- `ConstantMedium::hit`.  Two oracles stand in for `f64` library math:
`flen` models `Vec3::length` (the `sqrt`-based norm of the ray direction)
and `lnU` is the logarithm of the drawn uniform sample
`rand::random_range(0.0..1.0)`; everything else follows the source line by
line (entry search over `Interval::UNIVERSE`, exit search over
`[rec1.t + 0.0001, +inf)`, clipping, the free-path rejection test, and the
synthesized record with the phase-function material). -/
def mediumHit (m : MediumF) (flen : Vec3F → F) (lnU : F) (r : RayF)
    (rayT : IntervalF) : Option HitRec :=
  match m.boundaryHit r iUniverse with
  | none => none
  | some rec1 =>
    match m.boundaryHit r ⟨fadd rec1.t mediumEps, .pinf⟩ with
    | none => none
    | some rec2 =>
      if flt (fmul (fsub (clipHi rec2.t rayT.max) (clipLo rec1.t rayT.min)) (flen r.dir))
          (fmul m.negInvDensity lnU) = true then none
      else some { rec1 with
        t := fadd (clipLo rec1.t rayT.min)
          (fdiv (fmul m.negInvDensity lnU) (flen r.dir)),
        p := rayAt r (fadd (clipLo rec1.t rayT.min)
          (fdiv (fmul m.negInvDensity lnU) (flen r.dir))),
        mat := m.phase }

/-- C5: `ConstantMedium::hit` returns `None` exactly when the entry search
over the universe interval fails, or the exit search over
`[rec1.t + 0.0001, +inf)` fails, or the sampled free-path length
`(-1/density) * ln U` exceeds the in-boundary distance
`(clip(rec2.t) - clip(rec1.t)) * |dir|`; otherwise it returns a record
carrying the medium's phase-function material, with
`t = clip(rec1.t) + hit_distance / |dir|` and `p = r.at(t)`. -/
theorem medium_hit_characterization (bnd : RayF → IntervalF → Option HitRec)
    (density : F) (phase : Nat) (flen : Vec3F → F) (lnU : F) (r : RayF)
    (rayT : IntervalF) (hU : ∃ q : ℚ, lnU = .fin q ∧ q < 0) :
    (mediumHit (mediumFrom bnd density phase) flen lnU r rayT = none ↔
      bnd r iUniverse = none ∨
      (∃ h1, bnd r iUniverse = some h1 ∧
        bnd r ⟨fadd h1.t mediumEps, .pinf⟩ = none) ∨
      (∃ h1 h2, bnd r iUniverse = some h1 ∧
        bnd r ⟨fadd h1.t mediumEps, .pinf⟩ = some h2 ∧
        flt (fmul (fsub (clipHi h2.t rayT.max) (clipLo h1.t rayT.min)) (flen r.dir))
          (fmul (fdiv (.fin (-1)) density) lnU) = true))
    ∧ (∀ out, mediumHit (mediumFrom bnd density phase) flen lnU r rayT = some out →
      ∃ h1 h2, bnd r iUniverse = some h1 ∧
        bnd r ⟨fadd h1.t mediumEps, .pinf⟩ = some h2 ∧
        out.mat = phase ∧
        out.t = fadd (clipLo h1.t rayT.min)
          (fdiv (fmul (fdiv (.fin (-1)) density) lnU) (flen r.dir)) ∧
        out.p = rayAt r out.t) := by
  constructor
  · cases hb1 : bnd r iUniverse with
    | none => simp [mediumHit, mediumFrom, hb1]
    | some h1 =>
      cases hb2 : bnd r ⟨fadd h1.t mediumEps, .pinf⟩ with
      | none => simp [mediumHit, mediumFrom, hb1, hb2]
      | some h2 =>
        by_cases hrej : flt (fmul (fsub (clipHi h2.t rayT.max) (clipLo h1.t rayT.min))
            (flen r.dir)) (fmul (fdiv (.fin (-1)) density) lnU) = true
        · simp [mediumHit, mediumFrom, hb1, hb2, hrej]
        · simp [mediumHit, mediumFrom, hb1, hb2, hrej]
  · intro out hout
    cases hb1 : bnd r iUniverse with
    | none =>
      rw [show mediumHit (mediumFrom bnd density phase) flen lnU r rayT = none
        from by simp [mediumHit, mediumFrom, hb1]] at hout
      exact absurd hout (by simp)
    | some h1 =>
      cases hb2 : bnd r ⟨fadd h1.t mediumEps, .pinf⟩ with
      | none =>
        rw [show mediumHit (mediumFrom bnd density phase) flen lnU r rayT = none
          from by simp [mediumHit, mediumFrom, hb1, hb2]] at hout
        exact absurd hout (by simp)
      | some h2 =>
        by_cases hrej : flt (fmul (fsub (clipHi h2.t rayT.max) (clipLo h1.t rayT.min))
            (flen r.dir)) (fmul (fdiv (.fin (-1)) density) lnU) = true
        · rw [show mediumHit (mediumFrom bnd density phase) flen lnU r rayT = none
            from by simp [mediumHit, mediumFrom, hb1, hb2, hrej]] at hout
          exact absurd hout (by simp)
        · have hsome : mediumHit (mediumFrom bnd density phase) flen lnU r rayT =
              some { h1 with
                t := fadd (clipLo h1.t rayT.min)
                  (fdiv (fmul (fdiv (.fin (-1)) density) lnU) (flen r.dir)),
                p := rayAt r (fadd (clipLo h1.t rayT.min)
                  (fdiv (fmul (fdiv (.fin (-1)) density) lnU) (flen r.dir))),
                mat := phase } := by
            simp [mediumHit, mediumFrom, hb1, hb2, hrej]
          rw [hsome] at hout
          have he := Option.some.inj hout
          refine ⟨h1, h2, by simp [hb1], by simp [hb2], ?_, ?_, ?_⟩ <;> rw [← he]

def brec1 : HitRec :=
  ⟨.fin 1, ⟨.fin 0, .fin 0, .fin 0⟩, true, ⟨.fin 1, .fin 0, .fin 0⟩, 0, .fin 0, .fin 0⟩

def brec2 : HitRec :=
  ⟨.fin 3, ⟨.fin 0, .fin 0, .fin 0⟩, true, ⟨.fin 1, .fin 0, .fin 0⟩, 0, .fin 0, .fin 0⟩

/-- A convex-boundary stand-in: entry hit at `t = 1` for the universe
search (`min = -inf`), exit hit at `t = 3` for any later search. -/
def bnd5 : RayF → IntervalF → Option HitRec := fun _ J =>
  if J.min = F.ninf then some brec1 else some brec2

def ray5 : RayF := ⟨⟨.fin 0, .fin 0, .fin 0⟩, ⟨.fin 1, .fin 0, .fin 0⟩, .fin 0⟩

/-- The scattering record the medium synthesizes in the witness scenario. -/
def out5 : HitRec :=
  ⟨.fin 2, ⟨.fin 2, .fin 0, .fin 0⟩, true, ⟨.fin 1, .fin 0, .fin 0⟩, 7, .fin 0, .fin 0⟩

/-- C5, witness: the characterization applied to a concrete medium (density
1, phase material 7, `ln U = -1`, unit direction length), whose sampled
scattering event lands at `t = 2` between the boundary hits 1 and 3. -/
theorem medium_hit_characterization_witness :
    ∃ h1 h2, bnd5 ray5 iUniverse = some h1 ∧
      bnd5 ray5 ⟨fadd h1.t mediumEps, .pinf⟩ = some h2 ∧
      out5.mat = 7 ∧
      out5.t = fadd (clipLo h1.t (F.fin 0))
        (fdiv (fmul (fdiv (.fin (-1)) (.fin 1)) (.fin (-1))) ((fun _ => F.fin 1) ray5.dir)) ∧
      out5.p = rayAt ray5 out5.t :=
  (medium_hit_characterization bnd5 (.fin 1) 7 (fun _ => .fin 1) (.fin (-1)) ray5
      ⟨.fin 0, .fin 10⟩ ⟨-1, rfl, by norm_num⟩).2 out5 (by
    simp [mediumHit, mediumFrom, bnd5, brec1, brec2, mediumEps, clipLo, clipHi,
      flt, fle, fadd, fsub, fneg, fmul, fdiv, rayAt, vadd, vsmul, ray5, out5, iUniverse]
    norm_num)

/-! ### C10: the synthesized scattering event stays in the caller's interval -/

theorem clipLo_cases (a m : F) : clipLo a m = m ∨ clipLo a m = a := by
  unfold clipLo
  by_cases h : flt a m = true
  · rw [if_pos h]; exact Or.inl rfl
  · rw [if_neg h]; exact Or.inr rfl

theorem clipLo_ge {a m : F} (ha : a ≠ .nan) (hm : m ≠ .nan) :
    fle m (clipLo a m) = true := by
  unfold clipLo
  by_cases h : flt a m = true
  · rw [if_pos h]; exact fle_refl hm
  · rw [if_neg h]; exact fle_of_not_flt ha hm h

theorem clipLo_nonnan {a m : F} (ha : a ≠ .nan) (hm : m ≠ .nan) :
    clipLo a m ≠ .nan := by
  unfold clipLo
  by_cases h : flt a m = true
  · rw [if_pos h]; exact hm
  · rw [if_neg h]; exact ha

theorem clipLo_ninf {a m : F} (hm : m ≠ .nan) (h : clipLo a m = .ninf) :
    m = .ninf := by
  unfold clipLo at h
  by_cases hc : flt a m = true
  · rw [if_pos hc] at h; exact h
  · rw [if_neg hc] at h
    rw [h] at hc
    cases m <;> simp_all [flt]

theorem clipHi_le {b M : F} (hb : b ≠ .nan) (hM : M ≠ .nan) :
    fle (clipHi b M) M = true := by
  unfold clipHi
  by_cases h : flt M b = true
  · rw [if_pos h]; exact fle_refl hM
  · rw [if_neg h]; exact fle_of_not_flt hM hb h

theorem clipHi_nonnan {b M : F} (hb : b ≠ .nan) (hM : M ≠ .nan) :
    clipHi b M ≠ .nan := by
  unfold clipHi
  by_cases h : flt M b = true
  · rw [if_pos h]; exact hM
  · rw [if_neg h]; exact hb

theorem clipHi_pinf {b M : F} (hM : M ≠ .nan) (h : clipHi b M = .pinf) :
    M = .pinf := by
  unfold clipHi at h
  by_cases hc : flt M b = true
  · rw [if_pos hc] at h; exact h
  · rw [if_neg hc] at h
    rw [h] at hc
    cases M <;> simp_all [flt]

/-- C10, amended: when the boundary never reports a NaN hit time, the ray
direction has finite positive length, the density is finite positive, the
log-sample is finite negative, and the query interval is well ordered
(min ≤ max, non-NaN), any record returned by `ConstantMedium::hit` has its
`t` inside `[ray_t.min, ray_t.max]`.  (Unqualified, the claim fails: a NaN
exit time defeats the free-path rejection test, see the counterexample.) -/
theorem medium_hit_in_interval (bnd : RayF → IntervalF → Option HitRec)
    (density : F) (phase : Nat) (flen : Vec3F → F) (lnU : F) (r : RayF)
    (rayT : IntervalF) (out : HitRec)
    (hfin : ∀ J hr, bnd r J = some hr → hr.t ≠ .nan)
    (hlen : ∃ l : ℚ, flen r.dir = .fin l ∧ 0 < l)
    (hdens : ∃ d : ℚ, density = .fin d ∧ 0 < d)
    (hU : ∃ q : ℚ, lnU = .fin q ∧ q < 0)
    (hIv : fle rayT.min rayT.max = true)
    (hout : mediumHit (mediumFrom bnd density phase) flen lnU r rayT = some out) :
    fle rayT.min out.t = true ∧ fle out.t rayT.max = true := by
  obtain ⟨l, hlE, hlpos⟩ := hlen
  obtain ⟨d, hdE, hdpos⟩ := hdens
  obtain ⟨q, hqE, hqneg⟩ := hU
  have hmn : rayT.min ≠ .nan := by
    intro h; rw [h] at hIv; simp [fle, flt] at hIv
  have hmx : rayT.max ≠ .nan := by
    intro h; rw [h] at hIv; cases rayT.min <;> simp_all [fle, flt]
  have hneg : fdiv (.fin (-1)) density = .fin (-1 / d) := by
    rw [hdE]; simp [fdiv, ne_of_gt hdpos]
  have hh : fmul (fdiv (.fin (-1)) density) lnU = .fin (-1 / d * q) := by
    rw [hneg, hqE]; rfl
  have hhpos : 0 < -1 / d * q :=
    mul_pos_of_neg_of_neg (div_neg_of_neg_of_pos (by norm_num) hdpos) hqneg
  have hquot : fdiv (.fin (-1 / d * q)) (flen r.dir) = .fin (-1 / d * q / l) := by
    rw [hlE]; simp [fdiv, ne_of_gt hlpos]
  have hqpos : 0 < -1 / d * q / l := div_pos hhpos hlpos
  cases hb1 : bnd r iUniverse with
  | none =>
    rw [show mediumHit (mediumFrom bnd density phase) flen lnU r rayT = none from by
      simp [mediumHit, mediumFrom, hb1]] at hout
    exact absurd hout (by simp)
  | some rec1 =>
    cases hb2 : bnd r ⟨fadd rec1.t mediumEps, .pinf⟩ with
    | none =>
      rw [show mediumHit (mediumFrom bnd density phase) flen lnU r rayT = none from by
        simp [mediumHit, mediumFrom, hb1, hb2]] at hout
      exact absurd hout (by simp)
    | some rec2 =>
      have f1 : rec1.t ≠ .nan := hfin _ _ hb1
      have f2 : rec2.t ≠ .nan := hfin _ _ hb2
      by_cases hrej : flt (fmul (fsub (clipHi rec2.t rayT.max) (clipLo rec1.t rayT.min))
          (flen r.dir)) (fmul (fdiv (.fin (-1)) density) lnU) = true
      · rw [show mediumHit (mediumFrom bnd density phase) flen lnU r rayT = none from by
          simp only [mediumHit, mediumFrom, hb1, hb2]; rw [if_pos hrej]] at hout
        exact absurd hout (by simp)
      · rw [show mediumHit (mediumFrom bnd density phase) flen lnU r rayT =
            some { rec1 with
              t := fadd (clipLo rec1.t rayT.min)
                (fdiv (fmul (fdiv (.fin (-1)) density) lnU) (flen r.dir)),
              p := rayAt r (fadd (clipLo rec1.t rayT.min)
                (fdiv (fmul (fdiv (.fin (-1)) density) lnU) (flen r.dir))),
              mat := phase } from by
          simp only [mediumHit, mediumFrom, hb1, hb2]; rw [if_neg hrej]] at hout
        have he := Option.some.inj hout
        have hoT : out.t = fadd (clipLo rec1.t rayT.min) (.fin (-1 / d * q / l)) := by
          rw [← he, hh, hquot]
        rw [hh] at hrej
        rw [hoT]
        have hAge : fle rayT.min (clipLo rec1.t rayT.min) = true := clipLo_ge f1 hmn
        have hBle : fle (clipHi rec2.t rayT.max) rayT.max = true := clipHi_le f2 hmx
        cases hA : clipLo rec1.t rayT.min with
        | nan => exact absurd hA (clipLo_nonnan f1 hmn)
        | pinf =>
          constructor
          · exact fle_pinf_right hmn
          · cases hB : clipHi rec2.t rayT.max with
            | nan => exact absurd hB (clipHi_nonnan f2 hmx)
            | pinf =>
              rw [clipHi_pinf hmx hB]
              simp [fadd, fle, flt]
            | ninf =>
              rw [hA, hB, hlE] at hrej
              exact absurd (by simp [fsub, fadd, fneg, fmul, flt, hlpos]) hrej
            | fin b =>
              rw [hA, hB, hlE] at hrej
              exact absurd (by simp [fsub, fadd, fneg, fmul, flt, hlpos]) hrej
        | ninf =>
          constructor
          · rw [clipLo_ninf hmn hA]; simp [fadd, fle, flt]
          · exact fle_ninf_left hmx
        | fin a =>
          rw [hA] at hAge
          constructor
          · refine fle_trans hAge ?_
            simp [fadd, fle, flt]; linarith
          · cases hB : clipHi rec2.t rayT.max with
            | nan => exact absurd hB (clipHi_nonnan f2 hmx)
            | pinf =>
              rw [clipHi_pinf hmx hB]
              simp [fadd, fle, flt]
            | ninf =>
              rw [hA, hB, hlE] at hrej
              exact absurd (by simp [fsub, fadd, fneg, fmul, flt, hlpos]) hrej
            | fin b =>
              rw [hB] at hBle
              refine fle_trans ?_ hBle
              rw [hA, hB, hlE] at hrej
              have hd1 : fsub (F.fin b) (F.fin a) = F.fin (b + -a) := rfl
              rw [hd1] at hrej
              have hd2 : fmul (F.fin (b + -a)) (F.fin l) = F.fin ((b + -a) * l) := rfl
              rw [hd2] at hrej
              have hle : -1 / d * q ≤ (b + -a) * l := by
                by_contra hlt
                exact hrej (by simp [flt]; linarith)
              have hdiv : -1 / d * q / l ≤ b + -a := (div_le_iff₀ hlpos).2 hle
              simp [fadd, fle, flt]
              linarith

def brecE : HitRec :=
  ⟨.fin 5, ⟨.fin 0, .fin 0, .fin 0⟩, true, ⟨.fin 1, .fin 0, .fin 0⟩, 0, .fin 0, .fin 0⟩

def brecX : HitRec :=
  ⟨.nan, ⟨.fin 0, .fin 0, .fin 0⟩, true, ⟨.fin 1, .fin 0, .fin 0⟩, 0, .fin 0, .fin 0⟩

/-- A boundary whose exit search reports a NaN hit time (as a real
primitive can when its intersection math degenerates). -/
def bndX : RayF → IntervalF → Option HitRec := fun _ J =>
  if J.min = F.ninf then some brecE else some brecX

/-- C10, counterexample: with query interval `[0, 10]`, density 1, unit
direction length and `ln U = -20`, a NaN exit time makes the free-path
rejection test `dist_inside * len < hit_distance` evaluate to false (NaN
compares false), so the medium returns a record with `t = 25`, outside
`[ray_t.min, ray_t.max] = [0, 10]`. -/
theorem medium_hit_in_interval_cx :
    (mediumHit (mediumFrom bndX (.fin 1) 3) (fun _ => .fin 1) (.fin (-20)) ray5
        ⟨.fin 0, .fin 10⟩).map HitRec.t = some (.fin 25) ∧
    fle (F.fin 25) (F.fin 10) = false ∧
    fle (F.fin 0) (F.fin 10) = true := by
  refine ⟨?_, by simp [fle, flt]; norm_num, by simp [fle, flt]⟩
  simp [mediumHit, mediumFrom, bndX, brecE, brecX, mediumEps, clipLo, clipHi,
    flt, fle, fadd, fsub, fneg, fmul, fdiv, ray5, iUniverse]
  norm_num

/-- C10, witness: the amended theorem applied to the concrete well-behaved
medium of the C5 scenario; the returned `t = 2` indeed lies in `[0, 10]`. -/
theorem medium_hit_in_interval_witness :
    fle (F.fin 0) out5.t = true ∧ fle out5.t (F.fin 10) = true :=
  medium_hit_in_interval bnd5 (.fin 1) 7 (fun _ => .fin 1) (.fin (-1)) ray5
    ⟨.fin 0, .fin 10⟩ out5
    (by intro J hr h
        unfold bnd5 at h
        split_ifs at h <;> simp_all [brec1, brec2] <;> rw [← h] <;> simp)
    ⟨1, rfl, by norm_num⟩ ⟨1, rfl, by norm_num⟩ ⟨-1, rfl, by norm_num⟩
    (by simp [fle, flt])
    (by simp [mediumHit, mediumFrom, bnd5, brec1, brec2, mediumEps, clipLo, clipHi,
        flt, fle, fadd, fsub, fneg, fmul, fdiv, rayAt, vadd, vsmul, ray5, out5, iUniverse]
        norm_num)

/-! ### C6/C7: `Camera::ray_color` -/

def vzero : Vec3F := ⟨.fin 0, .fin 0, .fin 0⟩

/-- Component-wise product (`Mul for Vec3` in vec3.rs), used for
`attenuation * color_from_scatter`. -/
def vmul (a b : Vec3F) : Vec3F := ⟨fmul a.x b.x, fmul a.y b.y, fmul a.z b.z⟩

/-- The behavior of a material, as camera.rs consumes it: `emitted(u, v, p)`
and `scatter(r_in, rec)` returning the scattered ray and attenuation when
the material scatters.  Randomness inside the material is baked into the
oracle. -/
structure MatBeh where
  emitted : F → F → Vec3F → Vec3F
  scatter : RayF → HitRec → Option (RayF × Vec3F)

/-- The shadow-acne lower bound `0.001` of camera.rs. -/
def acneEps : F := .fin (1 / 1000)

/-- camera.rs `Camera::ray_color`, with the world's `hit` as a function and
materials resolved through an arena `mats`.  `depth` is the remaining
bounce budget; the Rust `i32` guard `depth <= 0` is the `0` case. -/
def rayColor (mats : Nat → MatBeh) (world : RayF → IntervalF → Option HitRec)
    (bg : Vec3F) (r : RayF) : Nat → Vec3F
  | 0 => vzero
  | Nat.succ depth =>
    match world r ⟨acneEps, .pinf⟩ with
    | none => bg
    | some rec =>
      match (mats rec.mat).scatter r rec with
      | none => (mats rec.mat).emitted rec.u rec.v rec.p
      | some (scattered, att) =>
        vadd ((mats rec.mat).emitted rec.u rec.v rec.p)
          (vmul att (rayColor mats world bg scattered depth))

/-- C6: for any positive depth, `ray_color` queries the world over
`(0.001, +inf)`; background on a miss; on a hit, the emitted color alone
when the material does not scatter, and emitted plus attenuation times the
recursive color at `depth - 1` when it does — emission is always
included. -/
theorem ray_color_structure (mats : Nat → MatBeh)
    (world : RayF → IntervalF → Option HitRec) (bg : Vec3F) (r : RayF)
    (depth : Nat) (hd : 1 ≤ depth) :
    (world r ⟨acneEps, .pinf⟩ = none → rayColor mats world bg r depth = bg) ∧
    (∀ rec, world r ⟨acneEps, .pinf⟩ = some rec →
      ((mats rec.mat).scatter r rec = none →
        rayColor mats world bg r depth = (mats rec.mat).emitted rec.u rec.v rec.p) ∧
      (∀ scattered att, (mats rec.mat).scatter r rec = some (scattered, att) →
        rayColor mats world bg r depth =
          vadd ((mats rec.mat).emitted rec.u rec.v rec.p)
            (vmul att (rayColor mats world bg scattered (depth - 1))))) := by
  obtain ⟨d, rfl⟩ : ∃ d, depth = d + 1 := ⟨depth - 1, by omega⟩
  refine ⟨fun h => by simp [rayColor, h], fun rec hrec => ⟨fun hs => ?_, fun sc att hs => ?_⟩⟩
  · simp [rayColor, hrec, hs]
  · simp [rayColor, hrec, hs]

def mats6 : Nat → MatBeh := fun _ => ⟨fun _ _ _ => vzero, fun _ _ => none⟩

def world6 : RayF → IntervalF → Option HitRec := fun _ _ => none

def bg6 : Vec3F := ⟨.fin 1, .fin 2, .fin 3⟩

def ray6 : RayF := ⟨⟨.fin 0, .fin 0, .fin 0⟩, ⟨.fin 0, .fin 0, .fin 1⟩, .fin 0⟩

/-- C6, witness: on an empty scene at depth 1 the structure theorem yields
the background color. -/
theorem ray_color_structure_witness :
    rayColor mats6 world6 bg6 ray6 1 = bg6 :=
  (ray_color_structure mats6 world6 bg6 ray6 1 (by norm_num)).1 rfl

/-- C7: `ray_color` at depth 0 is exactly black, for every world, material
arena, background and ray — the scene oracle is never consulted. -/
theorem ray_color_depth_zero (mats : Nat → MatBeh)
    (world : RayF → IntervalF → Option HitRec) (bg : Vec3F) (r : RayF) :
    rayColor mats world bg r 0 = vzero := rfl

/-! ### C8: `Translate::hit` round-trip -/

/-- hittable.rs `Translate::hit`: offset the ray origin backwards, query the
wrapped object, move the returned hit point forwards. -/
def translateHit (objHit : RayF → IntervalF → Option HitRec) (offset : Vec3F)
    (r : RayF) (I : IntervalF) : Option HitRec :=
  (objHit ⟨vsub r.orig offset, r.dir, r.tm⟩ I).map
    fun rec => { rec with p := vadd rec.p offset }

/-- C8: `Translate(obj, v).hit(r, I)` succeeds exactly when
`obj.hit(r - v, I)` does; the hit point comes back shifted by `v` and all
other fields (t, normal, front_face, u, v, material) are unchanged. -/
theorem translate_round_trip (objHit : RayF → IntervalF → Option HitRec)
    (offset : Vec3F) (r : RayF) (I : IntervalF) :
    ((translateHit objHit offset r I).isSome ↔
      (objHit ⟨vsub r.orig offset, r.dir, r.tm⟩ I).isSome) ∧
    (∀ rec rec', objHit ⟨vsub r.orig offset, r.dir, r.tm⟩ I = some rec →
      translateHit objHit offset r I = some rec' →
      rec'.p = vadd rec.p offset ∧ rec'.t = rec.t ∧ rec'.normal = rec.normal ∧
      rec'.front = rec.front ∧ rec'.u = rec.u ∧ rec'.v = rec.v ∧
      rec'.mat = rec.mat) := by
  constructor
  · simp [translateHit]
  · intro rec rec' h1 h2
    rw [translateHit, h1] at h2
    have h3 := Option.some.inj h2
    rw [← h3]
    exact ⟨rfl, rfl, rfl, rfl, rfl, rfl, rfl⟩

def trec : HitRec :=
  ⟨.fin 4, ⟨.fin 1, .fin 2, .fin 3⟩, true, ⟨.fin 0, .fin 1, .fin 0⟩, 5, .fin 0, .fin 0⟩

def tObjHit : RayF → IntervalF → Option HitRec := fun _ _ => some trec

def tOff : Vec3F := ⟨.fin 10, .fin 20, .fin 30⟩

/-- C8, witness: a concrete object hitting at `t = 4`, translated by
`(10, 20, 30)` — the record comes back with `p` shifted and `t`/material
unchanged. -/
theorem translate_round_trip_witness :
    ∃ rec', translateHit tObjHit tOff ray6 iUniverse = some rec' ∧
      rec'.p = vadd trec.p tOff ∧ rec'.t = trec.t ∧ rec'.mat = trec.mat := by
  have h := (translate_round_trip tObjHit tOff ray6 iUniverse).2 trec
      { trec with p := vadd trec.p tOff } rfl rfl
  exact ⟨_, rfl, h.1, h.2.1, h.2.2.2.2.2.2⟩

end RT
